import Mathlib

/-!
Verification of the background-removal pipeline's core algorithms.

The development shallowly embeds the JavaScript sources:
* `ImageAnalyzer` (image-analyzer.js): skin-tone detection, color variance,
  Sobel edge density, LBP texture, composite complexity.
* `MediaPipeProcessor` (image-analyzer.js): balanced-tier mask post-processing
  (median filter, morphological open, edge feathering) and its fallback.
* `TensorFlowProcessor`: precise-tier mask post-processing (bilateral filter,
  connected-component pruning, edge optimization) and its fallback.
* `CanvasProcessor`: fast-tier segmentation (`removeBackground`, `removeNoise`).
* `BackgroundRemovalApp`: intake filtering and tier recommendation.

Pixel buffers (JS `Uint8ClampedArray`) are modelled as total functions
`ℤ → ℕ` from flat byte offsets to byte values; every access the code performs
is in bounds, so the values outside the array range never influence results.
JS `number` arithmetic is modelled exactly: integer arithmetic over `ℕ`/`ℤ`,
decimal literals over `ℚ`, and transcendental operations (`Math.sqrt`,
`Math.exp`) over `ℝ`.
-/

/-- Flat byte offset of pixel (x, y) in a width-w RGBA buffer:
JS `(y * width + x) * 4`. -/
def zidx (w : ℕ) (x y : ℤ) : ℤ := (y * w + x) * 4

/-- An RGBA raster: `ImageData` of the canvas API.  `data j` is the byte at
flat offset `j`; channel k of pixel (x, y) lives at `zidx w x y + k`. -/
structure ImageData where
  width : ℕ
  height : ℕ
  data : ℤ → ℕ

/-- Integers from `a` (inclusive) to `b` (exclusive): a JS
`for (i = a; i < b; i++)` loop range. -/
def rangeZ (a b : ℤ) : List ℤ := (List.range (b - a).toNat).map (fun (i : ℕ) => a + (i : ℤ))

/-- Row-major pixel traversal of the rectangle [x0, x1) × [y0, y1): the
standard nested `for (y ...) for (x ...)` loop of the sources. -/
def pixelsIn (x0 x1 y0 y1 : ℤ) : List (ℤ × ℤ) :=
  (rangeZ y0 y1).flatMap (fun y => (rangeZ x0 x1).map (fun x => (x, y)))

theorem mem_rangeZ {a b i : ℤ} : i ∈ rangeZ a b ↔ a ≤ i ∧ i < b := by
  unfold rangeZ
  simp only [List.mem_map, List.mem_range]
  constructor
  · rintro ⟨n, hn, rfl⟩
    omega
  · rintro ⟨h1, h2⟩
    exact ⟨(i - a).toNat, by omega, by omega⟩

theorem mem_pixelsIn {x0 x1 y0 y1 : ℤ} {p : ℤ × ℤ} :
    p ∈ pixelsIn x0 x1 y0 y1 ↔ x0 ≤ p.1 ∧ p.1 < x1 ∧ y0 ≤ p.2 ∧ p.2 < y1 := by
  unfold pixelsIn
  simp only [List.mem_flatMap, List.mem_map]
  constructor
  · rintro ⟨y, hy, x, hx, rfl⟩
    rw [mem_rangeZ] at hy hx
    exact ⟨hx.1, hx.2, hy.1, hy.2⟩
  · rintro ⟨h1, h2, h3, h4⟩
    exact ⟨p.2, mem_rangeZ.2 ⟨h3, h4⟩, p.1, mem_rangeZ.2 ⟨h1, h2⟩,
      Prod.ext rfl rfl⟩

namespace BackgroundRemovalApp

/-- The three processing tiers. -/
inductive Mode where
  | fast
  | balanced
  | precise
deriving DecidableEq, Repr

/-- The fields of an analysis result that the tier recommendation reads. -/
structure Analysis where
  hasHuman : Bool
  complexity : ℚ

/-- Source `BackgroundRemovalApp.getRecommendedMode`: precise if
`hasHuman && complexity > 0.7`, else balanced if
`hasHuman || complexity > 0.4`, else fast. -/
def getRecommendedMode (analysis : Analysis) : Mode :=
  if analysis.hasHuman ∧ analysis.complexity > 0.7 then .precise
  else if analysis.hasHuman ∨ analysis.complexity > 0.4 then .balanced
  else .fast

/-- A file as the intake filter sees it: declared MIME type and size. -/
structure UploadFile where
  name : String
  type : String
  size : ℕ

/-- The predicate of the `files.filter` inside source
`BackgroundRemovalApp.processFiles`: JPEG/PNG only, at most 10 MB. -/
def fileFilter (f : UploadFile) : Bool :=
  let isValidType := f.type == "image/jpeg" || f.type == "image/png"
  let isValidSize := decide (f.size ≤ 10 * 1024 * 1024)
  if !isValidType then false
  else if !isValidSize then false
  else true

/-- Source `BackgroundRemovalApp.processFiles`, intake part: the valid files
kept for processing.  Filtering happens before any decode or processing of
the batch. -/
def processFiles (files : List UploadFile) : List UploadFile :=
  files.filter fileFilter

end BackgroundRemovalApp

/-- Claim C5: the tier recommendation is a deterministic function of
(hasHuman, complexity): precise exactly when hasHuman and complexity > 0.7;
otherwise balanced exactly when hasHuman or complexity > 0.4; otherwise
fast; and the three concrete examples from the spec evaluate as stated. -/
theorem c5_getRecommendedMode (a : BackgroundRemovalApp.Analysis) :
    (BackgroundRemovalApp.getRecommendedMode a = .precise ↔
      (a.hasHuman ∧ a.complexity > 0.7)) ∧
    (BackgroundRemovalApp.getRecommendedMode a = .balanced ↔
      (¬(a.hasHuman ∧ a.complexity > 0.7) ∧ (a.hasHuman ∨ a.complexity > 0.4))) ∧
    (BackgroundRemovalApp.getRecommendedMode a = .fast ↔
      (¬(a.hasHuman ∧ a.complexity > 0.7) ∧ ¬(a.hasHuman ∨ a.complexity > 0.4))) ∧
    BackgroundRemovalApp.getRecommendedMode ⟨true, 0.9⟩ = .precise ∧
    BackgroundRemovalApp.getRecommendedMode ⟨false, 0.1⟩ = .fast ∧
    BackgroundRemovalApp.getRecommendedMode ⟨false, 0.5⟩ = .balanced := by
  refine ⟨?_, ?_, ?_, ?_, ?_, ?_⟩
  · unfold BackgroundRemovalApp.getRecommendedMode
    split_ifs with h1 h2 <;> simp_all
  · unfold BackgroundRemovalApp.getRecommendedMode
    split_ifs with h1 h2 <;> simp_all
  · unfold BackgroundRemovalApp.getRecommendedMode
    split_ifs with h1 h2 <;> simp_all
  · unfold BackgroundRemovalApp.getRecommendedMode
    norm_num
  · unfold BackgroundRemovalApp.getRecommendedMode
    norm_num
  · unfold BackgroundRemovalApp.getRecommendedMode
    norm_num

/-- Claim C9: the intake filter accepts a file exactly when its MIME type is
image/jpeg or image/png and its size is at most 10 MB, and rejecting one
file does not prevent other valid files of the same batch from being
accepted (membership in the filtered batch depends only on the file's own
validity). -/
theorem c9_processFiles_filter (files : List BackgroundRemovalApp.UploadFile)
    (f : BackgroundRemovalApp.UploadFile) :
    f ∈ BackgroundRemovalApp.processFiles files ↔
      f ∈ files ∧ (f.type = "image/jpeg" ∨ f.type = "image/png") ∧
        f.size ≤ 10 * 1024 * 1024 := by
  unfold BackgroundRemovalApp.processFiles BackgroundRemovalApp.fileFilter
  simp only [List.mem_filter, Bool.not_eq_true']
  constructor
  · rintro ⟨hmem, hf⟩
    refine ⟨hmem, ?_⟩
    by_cases ht : (f.type == "image/jpeg" || f.type == "image/png") = true
    · by_cases hs : f.size ≤ 10 * 1024 * 1024
      · simp only [beq_iff_eq, Bool.or_eq_true] at ht
        exact ⟨ht, hs⟩
      · simp [ht, hs] at hf
    · simp [ht] at hf
  · rintro ⟨hmem, ht, hs⟩
    refine ⟨hmem, ?_⟩
    have ht' : (f.type == "image/jpeg" || f.type == "image/png") = true := by
      simp only [beq_iff_eq, Bool.or_eq_true]
      exact ht
    simp [ht', hs]

namespace ImageAnalyzer

/-- Source `ImageAnalyzer.rgbToGray`: luminance 0.299 R + 0.587 G + 0.114 B. -/
def rgbToGray (r g b : ℚ) : ℚ := 0.299 * r + 0.587 * g + 0.114 * b

/-- Source `ImageAnalyzer.isSkinColor`: chromatic-skin rule or pale-skin
rule on the RGB bytes. -/
def isSkinColor (r g b : ℕ) : Prop :=
  ((95 : ℤ) < r ∧ (40 : ℤ) < g ∧ (20 : ℤ) < b ∧
    (g : ℤ) < r ∧ (b : ℤ) < r ∧
    15 < |(r : ℤ) - g| ∧
    15 < max (r : ℤ) (max (g : ℤ) b) - min (r : ℤ) (min (g : ℤ) b)) ∨
  ((220 : ℤ) < r ∧ (210 : ℤ) < g ∧ (170 : ℤ) < b ∧
    |(r : ℤ) - g| ≤ 15 ∧ (b : ℤ) < r ∧ (b : ℤ) < g)

instance (r g b : ℕ) : Decidable (isSkinColor r g b) := by
  unfold isSkinColor
  infer_instance

/-- Number of skin-classified pixels: the counting loop of source
`ImageAnalyzer.detectHuman` (pixel p's bytes start at offset 4p). -/
def skinPixelCount (img : ImageData) : ℕ :=
  ((List.range (img.width * img.height)).filter
    (fun (p : ℕ) => decide (isSkinColor (img.data (4 * (p : ℤ)))
      (img.data (4 * (p : ℤ) + 1)) (img.data (4 * (p : ℤ) + 2))))).length

/-- Source `ImageAnalyzer.detectHuman`: skin ratio above 5 percent. -/
def detectHuman (img : ImageData) : Bool :=
  let totalPixels : ℚ := img.width * img.height
  decide ((skinPixelCount img : ℚ) / totalPixels > 0.05)

/-- Source quantization of `calculateColorVariance`:
`Math.floor(v / 32) * 32`. -/
def quantize32 (v : ℕ) : ℕ := v / 32 * 32

/-- The set of distinct quantized colors of the image: the key set of the
`colorMap` built by source `ImageAnalyzer.calculateColorVariance`. -/
def colorBuckets (img : ImageData) : Finset (ℕ × ℕ × ℕ) :=
  (Finset.range (img.width * img.height)).image
    (fun (p : ℕ) => (quantize32 (img.data (4 * (p : ℤ))),
      quantize32 (img.data (4 * (p : ℤ) + 1)),
      quantize32 (img.data (4 * (p : ℤ) + 2))))

/-- Source `ImageAnalyzer.calculateColorVariance`: distinct quantized colors
divided by 8 × 8 × 8. -/
def calculateColorVariance (img : ImageData) : ℚ :=
  ((colorBuckets img).card : ℚ) / (8 * 8 * 8)

/-- Luminance of the pixel at coordinates (x, y). -/
def grayAt (img : ImageData) (x y : ℤ) : ℚ :=
  rgbToGray (img.data (zidx img.width x y)) (img.data (zidx img.width x y + 1))
    (img.data (zidx img.width x y + 2))

/-- The nine 3 × 3 kernel positions of `getSobelX` / `getSobelY`. -/
def sobelPositions : List (ℤ × ℤ) :=
  [(-1, -1), (0, -1), (1, -1), (-1, 0), (0, 0), (1, 0), (-1, 1), (0, 1), (1, 1)]

/-- Source `ImageAnalyzer.getSobelX`: horizontal Sobel response. -/
def getSobelX (img : ImageData) (x y : ℤ) : ℚ :=
  ((sobelPositions.zip ([-1, 0, 1, -2, 0, 2, -1, 0, 1] : List ℚ)).map
    (fun pk => grayAt img (x + pk.1.1) (y + pk.1.2) * pk.2)).sum

/-- Source `ImageAnalyzer.getSobelY`: vertical Sobel response. -/
def getSobelY (img : ImageData) (x y : ℤ) : ℚ :=
  ((sobelPositions.zip ([-1, -2, -1, 0, 0, 0, 1, 2, 1] : List ℚ)).map
    (fun pk => grayAt img (x + pk.1.1) (y + pk.1.2) * pk.2)).sum

/-- Sobel gradient magnitude `Math.sqrt(gx * gx + gy * gy)`. -/
noncomputable def gradientAt (img : ImageData) (x y : ℤ) : ℝ :=
  Real.sqrt ((getSobelX img x y * getSobelX img x y +
    getSobelY img x y * getSobelY img x y : ℚ))

open Classical in
/-- The interior pixels whose gradient magnitude exceeds 30: the counting
loop of source `ImageAnalyzer.calculateEdgeDensity`. -/
noncomputable def edgeCount (img : ImageData) : ℕ :=
  ((pixelsIn 1 ((img.width : ℤ) - 1) 1 ((img.height : ℤ) - 1)).filter
    (fun p => decide (gradientAt img p.1 p.2 > 30))).length

/-- Source `ImageAnalyzer.calculateEdgeDensity`: edge pixels over interior
pixel count. -/
noncomputable def calculateEdgeDensity (img : ImageData) : ℚ :=
  (edgeCount img : ℚ) / (((img.width : ℚ) - 2) * ((img.height : ℚ) - 2))

/-- The eight neighbor positions of `calculateLBP`, in source order. -/
def lbpPositions : List (ℤ × ℤ) :=
  [(-1, -1), (0, -1), (1, -1), (1, 0), (-1, 0), (1, 1), (0, 1), (-1, 1)]

/-- Source `ImageAnalyzer.calculateLBP`: bit i is set when neighbor i's
luminance is at least the center luminance. -/
def calculateLBP (img : ImageData) (centerX centerY : ℤ) : ℕ :=
  (List.range 8).foldl
    (fun lbpValue i =>
      if grayAt img (centerX + (lbpPositions.getD i (0, 0)).1)
          (centerY + (lbpPositions.getD i (0, 0)).2) ≥ grayAt img centerX centerY
      then lbpValue ||| (1 <<< i) else lbpValue) 0

/-- Source `ImageAnalyzer.getLBPVariance`: the number of bit transitions
around the 8-bit ring.  The source walks the MSB-first binary string, whose
character i is bit (7 - i) of the value. -/
def getLBPVariance (lbpValue : ℕ) : ℕ :=
  ((List.range 8).filter
    (fun i => lbpValue.testBit (7 - i) != lbpValue.testBit (7 - (i + 1) % 8))).length

/-- The sample grid of source `ImageAnalyzer.calculateTextureComplexity`:
both coordinates run 8, 16, 24, ... while strictly below dimension - 8. -/
def textureSamples (img : ImageData) : List (ℤ × ℤ) :=
  ((List.range img.height).filter
    (fun (y : ℕ) => decide (8 ≤ y ∧ y + 8 < img.height ∧ y % 8 = 0))).flatMap
    (fun (y : ℕ) => ((List.range img.width).filter
      (fun (x : ℕ) => decide (8 ≤ x ∧ x + 8 < img.width ∧ x % 8 = 0))).map
      (fun (x : ℕ) => ((x : ℤ), (y : ℤ))))

/-- Source `ImageAnalyzer.calculateTextureComplexity`: average LBP transition
count over the samples, normalized by 255; zero when there are no samples. -/
def calculateTextureComplexity (img : ImageData) : ℚ :=
  let samples := textureSamples img
  if samples.length > 0 then
    ((samples.map (fun p => (getLBPVariance (calculateLBP img p.1 p.2) : ℚ))).sum) /
      (samples.length : ℚ) / 255
  else 0

/-- Source `ImageAnalyzer.calculateComplexity`: weighted combination clamped
to [0, 1]. -/
noncomputable def calculateComplexity (img : ImageData) : ℚ :=
  min 1 (max 0 (calculateColorVariance img * 0.4 + calculateEdgeDensity img * 0.4 +
    calculateTextureComplexity img * 0.2))

end ImageAnalyzer

/-- An image whose every pixel has the RGB bytes (r0, g0, b0) (the alpha
channel is unconstrained). -/
def IsConstImage (img : ImageData) (r0 g0 b0 : ℕ) : Prop :=
  ∀ j : ℤ, 0 ≤ j → j < 4 * img.width * img.height →
    (j % 4 = 0 → img.data j = r0) ∧ (j % 4 = 1 → img.data j = g0) ∧
    (j % 4 = 2 → img.data j = b0)

/-- Claim C8: on an all-mid-gray image the skin classifier finds no skin
pixel (the pixel (128, 128, 128) satisfies neither skin rule), the skin
ratio is 0, and `detectHuman` reports false. -/
theorem c8_detectHuman_midgray (img : ImageData)
    (huniform : IsConstImage img 128 128 128) :
    ¬ ImageAnalyzer.isSkinColor 128 128 128 ∧
    ImageAnalyzer.skinPixelCount img = 0 ∧
    ImageAnalyzer.detectHuman img = false := by
  have hskin : ¬ ImageAnalyzer.isSkinColor 128 128 128 := by decide
  have hcount : ImageAnalyzer.skinPixelCount img = 0 := by
    unfold ImageAnalyzer.skinPixelCount
    rw [List.length_eq_zero]
    rw [List.filter_eq_nil_iff]
    intro p hp
    rw [List.mem_range] at hp
    have hj : (0 : ℤ) ≤ 4 * (p : ℤ) ∧ 4 * (p : ℤ) + 2 < 4 * img.width * img.height := by
      constructor
      · positivity
      · have : (p : ℤ) + 1 ≤ (img.width * img.height : ℕ) := by exact_mod_cast hp
        push_cast at this ⊢
        nlinarith
    have h0 := huniform (4 * (p : ℤ)) hj.1 (by omega)
    have h1 := huniform (4 * (p : ℤ) + 1) (by omega) (by omega)
    have h2 := huniform (4 * (p : ℤ) + 2) (by omega) (by omega)
    have e0 : img.data (4 * (p : ℤ)) = 128 := h0.1 (by omega)
    have e1 : img.data (4 * (p : ℤ) + 1) = 128 := h1.2.1 (by omega)
    have e2 : img.data (4 * (p : ℤ) + 2) = 128 := h2.2.2 (by omega)
    simp [e0, e1, e2, hskin]
  refine ⟨hskin, hcount, ?_⟩
  unfold ImageAnalyzer.detectHuman
  rw [hcount]
  simp only [Nat.cast_zero, zero_div, decide_eq_false_iff_not]
  norm_num

/-- Witness for C8: the 2 × 2 image whose bytes are all 128 is mid-gray
uniform, and the classifier reports no human on it. -/
theorem c8_detectHuman_midgray_witness :
    ¬ ImageAnalyzer.isSkinColor 128 128 128 ∧
    ImageAnalyzer.skinPixelCount ⟨2, 2, fun _ => 128⟩ = 0 ∧
    ImageAnalyzer.detectHuman ⟨2, 2, fun _ => 128⟩ = false :=
  c8_detectHuman_midgray ⟨2, 2, fun _ => 128⟩
    (fun _ _ _ => ⟨fun _ => rfl, fun _ => rfl, fun _ => rfl⟩)

/-- An image colored as a two-color checkerboard: pixel (x, y) has the RGB
bytes of c0 when x + y is even and of c1 when x + y is odd. -/
def IsCheckerboard (img : ImageData) (c0 c1 : ℕ × ℕ × ℕ) : Prop :=
  ∀ x y : ℤ, 0 ≤ x → x < img.width → 0 ≤ y → y < img.height →
    img.data (zidx img.width x y) = (if (x + y) % 2 = 0 then c0.1 else c1.1) ∧
    img.data (zidx img.width x y + 1) = (if (x + y) % 2 = 0 then c0.2.1 else c1.2.1) ∧
    img.data (zidx img.width x y + 2) = (if (x + y) % 2 = 0 then c0.2.2 else c1.2.2)

theorem pixel_offset_bounds {w h x y : ℤ} (hx0 : 0 ≤ x) (hxw : x < w)
    (hy0 : 0 ≤ y) (hyh : y < h) :
    0 ≤ (y * w + x) * 4 ∧ (y * w + x) * 4 + 3 < 4 * w * h := by
  have h1 : 0 ≤ y * w := mul_nonneg hy0 (by linarith)
  have h2 : y * w ≤ (h - 1) * w :=
    mul_le_mul_of_nonneg_right (by linarith) (by linarith)
  constructor
  · linarith
  · nlinarith

theorem offset_of_pixel (w p : ℕ) :
    zidx w ((p % w : ℕ) : ℤ) ((p / w : ℕ) : ℤ) = 4 * (p : ℤ) := by
  have h := Nat.div_add_mod p w
  unfold zidx
  have h' : ((w : ℤ)) * ((p / w : ℕ) : ℤ) + ((p % w : ℕ) : ℤ) = (p : ℤ) := by
    exact_mod_cast h
  ring_nf
  ring_nf at h'
  linarith

namespace ImageAnalyzer

theorem grayAt_const {img : ImageData} {r0 g0 b0 : ℕ}
    (h : IsConstImage img r0 g0 b0) {x y : ℤ} (hx0 : 0 ≤ x)
    (hxw : x < img.width) (hy0 : 0 ≤ y) (hyh : y < img.height) :
    grayAt img x y = rgbToGray (r0 : ℚ) (g0 : ℚ) (b0 : ℚ) := by
  have hb := pixel_offset_bounds hx0 hxw hy0 hyh
  have hm : (y * (img.width : ℤ) + x) * 4 % 4 = 0 := Int.mul_emod_left _ _
  unfold grayAt zidx
  have h0 := (h ((y * (img.width : ℤ) + x) * 4) hb.1 (by omega)).1 (by omega)
  have h1 := (h ((y * (img.width : ℤ) + x) * 4 + 1) (by omega) (by omega)).2.1 (by omega)
  have h2 := (h ((y * (img.width : ℤ) + x) * 4 + 2) (by omega) (by omega)).2.2 (by omega)
  rw [h0, h1, h2]

theorem getSobelX_const {img : ImageData} {r0 g0 b0 : ℕ}
    (h : IsConstImage img r0 g0 b0) {x y : ℤ} (hx0 : 1 ≤ x)
    (hxw : x < (img.width : ℤ) - 1) (hy0 : 1 ≤ y) (hyh : y < (img.height : ℤ) - 1) :
    getSobelX img x y = 0 := by
  have hg : ∀ dx dy : ℤ, -1 ≤ dx → dx ≤ 1 → -1 ≤ dy → dy ≤ 1 →
      grayAt img (x + dx) (y + dy) = rgbToGray (r0 : ℚ) (g0 : ℚ) (b0 : ℚ) :=
    fun dx dy h1 h2 h3 h4 =>
      grayAt_const h (by omega) (by omega) (by omega) (by omega)
  unfold getSobelX sobelPositions
  simp only [List.zip_cons_cons, List.zip_nil_right, List.map_cons, List.map_nil,
    List.sum_cons, List.sum_nil]
  simp only [hg (-1) (-1) (by norm_num) (by norm_num) (by norm_num) (by norm_num),
    hg 0 (-1) (by norm_num) (by norm_num) (by norm_num) (by norm_num),
    hg 1 (-1) (by norm_num) (by norm_num) (by norm_num) (by norm_num),
    hg (-1) 0 (by norm_num) (by norm_num) (by norm_num) (by norm_num),
    hg 0 0 (by norm_num) (by norm_num) (by norm_num) (by norm_num),
    hg 1 0 (by norm_num) (by norm_num) (by norm_num) (by norm_num),
    hg (-1) 1 (by norm_num) (by norm_num) (by norm_num) (by norm_num),
    hg 0 1 (by norm_num) (by norm_num) (by norm_num) (by norm_num),
    hg 1 1 (by norm_num) (by norm_num) (by norm_num) (by norm_num)]
  ring

theorem getSobelY_const {img : ImageData} {r0 g0 b0 : ℕ}
    (h : IsConstImage img r0 g0 b0) {x y : ℤ} (hx0 : 1 ≤ x)
    (hxw : x < (img.width : ℤ) - 1) (hy0 : 1 ≤ y) (hyh : y < (img.height : ℤ) - 1) :
    getSobelY img x y = 0 := by
  have hg : ∀ dx dy : ℤ, -1 ≤ dx → dx ≤ 1 → -1 ≤ dy → dy ≤ 1 →
      grayAt img (x + dx) (y + dy) = rgbToGray (r0 : ℚ) (g0 : ℚ) (b0 : ℚ) :=
    fun dx dy h1 h2 h3 h4 =>
      grayAt_const h (by omega) (by omega) (by omega) (by omega)
  unfold getSobelY sobelPositions
  simp only [List.zip_cons_cons, List.zip_nil_right, List.map_cons, List.map_nil,
    List.sum_cons, List.sum_nil]
  simp only [hg (-1) (-1) (by norm_num) (by norm_num) (by norm_num) (by norm_num),
    hg 0 (-1) (by norm_num) (by norm_num) (by norm_num) (by norm_num),
    hg 1 (-1) (by norm_num) (by norm_num) (by norm_num) (by norm_num),
    hg (-1) 0 (by norm_num) (by norm_num) (by norm_num) (by norm_num),
    hg 0 0 (by norm_num) (by norm_num) (by norm_num) (by norm_num),
    hg 1 0 (by norm_num) (by norm_num) (by norm_num) (by norm_num),
    hg (-1) 1 (by norm_num) (by norm_num) (by norm_num) (by norm_num),
    hg 0 1 (by norm_num) (by norm_num) (by norm_num) (by norm_num),
    hg 1 1 (by norm_num) (by norm_num) (by norm_num) (by norm_num)]
  ring

end ImageAnalyzer

namespace ImageAnalyzer

theorem colorBuckets_const {img : ImageData} {r0 g0 b0 : ℕ}
    (h : IsConstImage img r0 g0 b0) (hne : 0 < img.width * img.height) :
    colorBuckets img = {(quantize32 r0, quantize32 g0, quantize32 b0)} := by
  unfold colorBuckets
  ext c
  simp only [Finset.mem_image, Finset.mem_range, Finset.mem_singleton]
  constructor
  · rintro ⟨p, hp, rfl⟩
    have hj0 : (0 : ℤ) ≤ 4 * (p : ℤ) := by positivity
    have hjlt : 4 * (p : ℤ) + 2 < 4 * img.width * img.height := by
      have : (p : ℤ) + 1 ≤ (img.width * img.height : ℕ) := by exact_mod_cast hp
      push_cast at this ⊢
      nlinarith
    have e0 : img.data (4 * (p : ℤ)) = r0 := (h _ hj0 (by omega)).1 (by omega)
    have e1 : img.data (4 * (p : ℤ) + 1) = g0 := (h _ (by omega) (by omega)).2.1 (by omega)
    have e2 : img.data (4 * (p : ℤ) + 2) = b0 := (h _ (by omega) (by omega)).2.2 (by omega)
    rw [e0, e1, e2]
  · rintro rfl
    refine ⟨0, hne, ?_⟩
    have hwh : (4 : ℤ) ≤ 4 * img.width * img.height := by
      have : (1 : ℤ) ≤ (img.width : ℤ) * img.height := by exact_mod_cast hne
      nlinarith
    have e0 : img.data 0 = r0 := (h 0 le_rfl (by omega)).1 (by norm_num)
    have e1 : img.data 1 = g0 := (h 1 (by norm_num) (by omega)).2.1 (by norm_num)
    have e2 : img.data 2 = b0 := (h 2 (by norm_num) (by omega)).2.2 (by norm_num)
    norm_num [e0, e1, e2]

theorem calculateColorVariance_const {img : ImageData} {r0 g0 b0 : ℕ}
    (h : IsConstImage img r0 g0 b0) (hne : 0 < img.width * img.height) :
    calculateColorVariance img = 1 / 512 := by
  unfold calculateColorVariance
  rw [colorBuckets_const h hne, Finset.card_singleton]
  norm_num

theorem gradientAt_const {img : ImageData} {r0 g0 b0 : ℕ}
    (h : IsConstImage img r0 g0 b0) {x y : ℤ} (hx0 : 1 ≤ x)
    (hxw : x < (img.width : ℤ) - 1) (hy0 : 1 ≤ y) (hyh : y < (img.height : ℤ) - 1) :
    gradientAt img x y = 0 := by
  unfold gradientAt
  rw [getSobelX_const h hx0 hxw hy0 hyh, getSobelY_const h hx0 hxw hy0 hyh]
  norm_num

theorem edgeCount_const {img : ImageData} {r0 g0 b0 : ℕ}
    (h : IsConstImage img r0 g0 b0) : edgeCount img = 0 := by
  unfold edgeCount
  rw [List.length_eq_zero, List.filter_eq_nil_iff]
  intro p hp
  rw [mem_pixelsIn] at hp
  have hgrad : gradientAt img p.1 p.2 = 0 :=
    gradientAt_const h hp.1 hp.2.1 hp.2.2.1 hp.2.2.2
  simp only [decide_eq_true_eq, hgrad]
  norm_num

theorem calculateEdgeDensity_const {img : ImageData} {r0 g0 b0 : ℕ}
    (h : IsConstImage img r0 g0 b0) : calculateEdgeDensity img = 0 := by
  unfold calculateEdgeDensity
  rw [edgeCount_const h]
  norm_num

theorem mem_textureSamples {img : ImageData} {p : ℤ × ℤ}
    (hp : p ∈ textureSamples img) :
    8 ≤ p.1 ∧ p.1 + 8 < (img.width : ℤ) ∧ 8 ≤ p.2 ∧ p.2 + 8 < (img.height : ℤ) := by
  unfold textureSamples at hp
  simp only [List.mem_flatMap, List.mem_filter, List.mem_map, List.mem_range,
    decide_eq_true_eq] at hp
  obtain ⟨y, ⟨hyr, hy⟩, x, ⟨hxr, hx⟩, rfl⟩ := hp
  refine ⟨?_, ?_, ?_, ?_⟩ <;> push_cast <;> omega

theorem calculateLBP_const {img : ImageData} {r0 g0 b0 : ℕ}
    (h : IsConstImage img r0 g0 b0) {x y : ℤ} (hx0 : 1 ≤ x)
    (hxw : x < (img.width : ℤ) - 1) (hy0 : 1 ≤ y) (hyh : y < (img.height : ℤ) - 1) :
    calculateLBP img x y = 255 := by
  have hg : ∀ dx dy : ℤ, -1 ≤ dx → dx ≤ 1 → -1 ≤ dy → dy ≤ 1 →
      grayAt img (x + dx) (y + dy) = rgbToGray (r0 : ℚ) (g0 : ℚ) (b0 : ℚ) :=
    fun dx dy h1 h2 h3 h4 =>
      grayAt_const h (by omega) (by omega) (by omega) (by omega)
  have hc : grayAt img x y = rgbToGray (r0 : ℚ) (g0 : ℚ) (b0 : ℚ) :=
    grayAt_const h (by omega) (by omega) (by omega) (by omega)
  unfold calculateLBP
  have hr : List.range 8 = [0, 1, 2, 3, 4, 5, 6, 7] := rfl
  rw [hr]
  simp only [List.foldl_cons, List.foldl_nil, lbpPositions, List.getD_cons_zero,
    List.getD_cons_succ]
  simp only [hg (-1) (-1) (by norm_num) (by norm_num) (by norm_num) (by norm_num),
    hg 0 (-1) (by norm_num) (by norm_num) (by norm_num) (by norm_num),
    hg 1 (-1) (by norm_num) (by norm_num) (by norm_num) (by norm_num),
    hg (-1) 0 (by norm_num) (by norm_num) (by norm_num) (by norm_num),
    hg 1 0 (by norm_num) (by norm_num) (by norm_num) (by norm_num),
    hg (-1) 1 (by norm_num) (by norm_num) (by norm_num) (by norm_num),
    hg 0 1 (by norm_num) (by norm_num) (by norm_num) (by norm_num),
    hg 1 1 (by norm_num) (by norm_num) (by norm_num) (by norm_num),
    hc, ge_iff_le, le_refl, if_true]
  decide

theorem calculateTextureComplexity_const {img : ImageData} {r0 g0 b0 : ℕ}
    (h : IsConstImage img r0 g0 b0) : calculateTextureComplexity img = 0 := by
  unfold calculateTextureComplexity
  dsimp only
  have hz : ∀ q ∈ (textureSamples img).map
      (fun p => (getLBPVariance (calculateLBP img p.1 p.2) : ℚ)), q = 0 := by
    intro q hq
    rw [List.mem_map] at hq
    obtain ⟨p, hp, rfl⟩ := hq
    have hb := mem_textureSamples hp
    rw [calculateLBP_const h (by omega) (by omega) (by omega) (by omega)]
    norm_num [show getLBPVariance 255 = 0 from by decide]
  rw [List.sum_eq_zero hz]
  simp

theorem calculateComplexity_const {img : ImageData} {r0 g0 b0 : ℕ}
    (h : IsConstImage img r0 g0 b0) (hw : 3 ≤ img.width) (hh : 3 ≤ img.height) :
    calculateComplexity img = 1 / 1280 := by
  unfold calculateComplexity
  rw [calculateColorVariance_const h (Nat.mul_pos (by omega) (by omega)),
    calculateEdgeDensity_const h, calculateTextureComplexity_const h]
  have hval : (1 : ℚ) / 512 * 0.4 + 0 * 0.4 + 0 * 0.2 = 1 / 1280 := by norm_num
  rw [hval, max_eq_right (by norm_num), min_eq_right (by norm_num)]

theorem colorBuckets_checker {img : ImageData} {c0 c1 : ℕ × ℕ × ℕ}
    (h : IsCheckerboard img c0 c1) (hw : 2 ≤ img.width) (hh : 1 ≤ img.height) :
    colorBuckets img =
      {(quantize32 c0.1, quantize32 c0.2.1, quantize32 c0.2.2),
       (quantize32 c1.1, quantize32 c1.2.1, quantize32 c1.2.2)} := by
  unfold colorBuckets
  ext c
  simp only [Finset.mem_image, Finset.mem_range, Finset.mem_insert, Finset.mem_singleton]
  constructor
  · rintro ⟨p, hp, rfl⟩
    have hpx : p % img.width < img.width := Nat.mod_lt _ (by omega)
    have hpy : p / img.width < img.height := Nat.div_lt_of_lt_mul (by omega)
    have hcoord := h ((p % img.width : ℕ) : ℤ) ((p / img.width : ℕ) : ℤ)
      (by positivity) (by exact_mod_cast hpx) (by positivity) (by exact_mod_cast hpy)
    rw [offset_of_pixel img.width p] at hcoord
    rw [hcoord.1, hcoord.2.1, hcoord.2.2]
    by_cases hpar : (((p % img.width : ℕ) : ℤ) + ((p / img.width : ℕ) : ℤ)) % 2 = 0
    · left
      rw [if_pos hpar, if_pos hpar, if_pos hpar]
    · right
      rw [if_neg hpar, if_neg hpar, if_neg hpar]
  · have hwh : 0 < img.width * img.height := Nat.mul_pos (by omega) (by omega)
    have hzero : zidx img.width 0 0 = 0 := by unfold zidx; ring
    have hone : zidx img.width 1 0 = 4 := by unfold zidx; ring
    rintro (rfl | rfl)
    · refine ⟨0, hwh, ?_⟩
      have hcoord := h 0 0 le_rfl (by exact_mod_cast (by omega : 0 < img.width))
        le_rfl (by exact_mod_cast (by omega : 0 < img.height))
      rw [hzero] at hcoord
      norm_num at hcoord
      norm_num [hcoord.1, hcoord.2.1, hcoord.2.2]
    · refine ⟨1, by nlinarith, ?_⟩
      have hcoord := h 1 0 (by norm_num) (by exact_mod_cast (by omega : 1 < img.width))
        le_rfl (by exact_mod_cast (by omega : 0 < img.height))
      rw [hone] at hcoord
      norm_num at hcoord
      norm_num [hcoord.1, hcoord.2.1, hcoord.2.2]

theorem calculateEdgeDensity_nonneg (img : ImageData) (hw : 3 ≤ img.width)
    (hh : 3 ≤ img.height) : 0 ≤ calculateEdgeDensity img := by
  unfold calculateEdgeDensity
  apply div_nonneg (by positivity)
  have hw' : (3 : ℚ) ≤ img.width := by exact_mod_cast hw
  have hh' : (3 : ℚ) ≤ img.height := by exact_mod_cast hh
  nlinarith

theorem calculateTextureComplexity_nonneg (img : ImageData) :
    0 ≤ calculateTextureComplexity img := by
  unfold calculateTextureComplexity
  dsimp only
  split_ifs with hlen
  · apply div_nonneg (div_nonneg ?_ (by positivity)) (by norm_num)
    apply List.sum_nonneg
    intro q hq
    rw [List.mem_map] at hq
    obtain ⟨p, _, rfl⟩ := hq
    positivity
  · exact le_refl 0

end ImageAnalyzer

/-- A 3 × 3 checkerboard of the colors (0, 0, 0) and (1, 1, 1): both colors
quantize to the same 32-level bucket. -/
def c3imgChecker : ImageData :=
  ⟨3, 3, fun j => if j % 4 = 3 then 255
    else if ((j / 4) % 3 + j / 4 / 3) % 2 = 0 then 0 else 1⟩

/-- A 3 × 3 checkerboard of black (0, 0, 0) and white (255, 255, 255). -/
def c3imgCheckerBW : ImageData :=
  ⟨3, 3, fun j => if j % 4 = 3 then 255
    else if ((j / 4) % 3 + j / 4 / 3) % 2 = 0 then 0 else 255⟩

/-- A uniform black 3 × 3 image. -/
def c3imgUniform : ImageData :=
  ⟨3, 3, fun j => if j % 4 = 3 then 255 else 0⟩

theorem c3imgChecker_isCheckerboard : IsCheckerboard c3imgChecker (0, 0, 0) (1, 1, 1) := by
  intro x y hx0 hxw hy0 hyh
  have hxw' : x < 3 := by exact_mod_cast hxw
  have hyh' : y < 3 := by exact_mod_cast hyh
  interval_cases x <;> interval_cases y <;> refine ⟨?_, ?_, ?_⟩ <;> decide

theorem c3imgCheckerBW_isCheckerboard :
    IsCheckerboard c3imgCheckerBW (0, 0, 0) (255, 255, 255) := by
  intro x y hx0 hxw hy0 hyh
  have hxw' : x < 3 := by exact_mod_cast hxw
  have hyh' : y < 3 := by exact_mod_cast hyh
  interval_cases x <;> interval_cases y <;> refine ⟨?_, ?_, ?_⟩ <;> decide

theorem c3imgUniform_isConst : IsConstImage c3imgUniform 0 0 0 := by
  intro j h0 hlt
  refine ⟨?_, ?_, ?_⟩ <;> intro hm <;> simp only [c3imgUniform] <;>
    rw [if_neg (by omega)]

/-- Claim C3 counterexample: `c3imgChecker` is a genuine 2-color checkerboard
and `c3imgUniform` a same-sized uniform image, yet the composite complexity
of the checkerboard is NOT strictly higher: both colors of the checkerboard
fall into the same 32-level quantization bucket, the 1-pixel checkerboard
pattern has zero Sobel response, and the image is too small for texture
samples, so both composite scores equal 1/1280. -/
theorem c3_checkerboard_counterexample :
    IsCheckerboard c3imgChecker (0, 0, 0) (1, 1, 1) ∧
    ((0, 0, 0) : ℕ × ℕ × ℕ) ≠ (1, 1, 1) ∧
    IsConstImage c3imgUniform 0 0 0 ∧
    c3imgChecker.width = c3imgUniform.width ∧
    c3imgChecker.height = c3imgUniform.height ∧
    ¬ ImageAnalyzer.calculateComplexity c3imgUniform <
        ImageAnalyzer.calculateComplexity c3imgChecker := by
  refine ⟨c3imgChecker_isCheckerboard, by decide, c3imgUniform_isConst, rfl, rfl, ?_⟩
  have hU : ImageAnalyzer.calculateComplexity c3imgUniform = 1 / 1280 :=
    ImageAnalyzer.calculateComplexity_const c3imgUniform_isConst
      (by norm_num [c3imgUniform]) (by norm_num [c3imgUniform])
  have hcv : ImageAnalyzer.calculateColorVariance c3imgChecker = 1 / 512 := by
    have hcard : (ImageAnalyzer.colorBuckets c3imgChecker).card = 1 := by decide
    unfold ImageAnalyzer.calculateColorVariance
    rw [hcard]
    norm_num
  have hgx : ImageAnalyzer.getSobelX c3imgChecker 1 1 = 0 := by
    simp only [ImageAnalyzer.getSobelX, ImageAnalyzer.sobelPositions,
      List.zip_cons_cons, List.zip_nil_right, List.map_cons, List.map_nil,
      List.sum_cons, List.sum_nil, ImageAnalyzer.grayAt, ImageAnalyzer.rgbToGray,
      zidx, c3imgChecker]
    norm_num
  have hgy : ImageAnalyzer.getSobelY c3imgChecker 1 1 = 0 := by
    simp only [ImageAnalyzer.getSobelY, ImageAnalyzer.sobelPositions,
      List.zip_cons_cons, List.zip_nil_right, List.map_cons, List.map_nil,
      List.sum_cons, List.sum_nil, ImageAnalyzer.grayAt, ImageAnalyzer.rgbToGray,
      zidx, c3imgChecker]
    norm_num
  have hgrad : ImageAnalyzer.gradientAt c3imgChecker 1 1 = 0 := by
    unfold ImageAnalyzer.gradientAt
    rw [hgx, hgy]
    norm_num
  have hec : ImageAnalyzer.edgeCount c3imgChecker = 0 := by
    unfold ImageAnalyzer.edgeCount
    rw [List.length_eq_zero, List.filter_eq_nil_iff]
    intro p hp
    rw [mem_pixelsIn] at hp
    have hw3 : (c3imgChecker.width : ℤ) = 3 := by norm_num [c3imgChecker]
    have hh3 : (c3imgChecker.height : ℤ) = 3 := by norm_num [c3imgChecker]
    rw [hw3] at hp
    rw [hh3] at hp
    have hp1 : p.1 = 1 := by omega
    have hp2 : p.2 = 1 := by omega
    rw [show p = (1, 1) from Prod.ext hp1 hp2]
    simp only [decide_eq_true_eq, hgrad]
    norm_num
  have hed : ImageAnalyzer.calculateEdgeDensity c3imgChecker = 0 := by
    unfold ImageAnalyzer.calculateEdgeDensity
    rw [hec]
    norm_num
  have htc : ImageAnalyzer.calculateTextureComplexity c3imgChecker = 0 := by decide
  have hC : ImageAnalyzer.calculateComplexity c3imgChecker = 1 / 1280 := by
    unfold ImageAnalyzer.calculateComplexity
    rw [hcv, hed, htc]
    have hval : (1 : ℚ) / 512 * 0.4 + 0 * 0.4 + 0 * 0.2 = 1 / 1280 := by norm_num
    rw [hval, max_eq_right (by norm_num), min_eq_right (by norm_num)]
  rw [hU, hC]
  exact lt_irrefl _

/-- Claim C3, amended: if additionally the checkerboard's two colors fall in
distinct 32-level quantization buckets, the composite complexity of the
checkerboard is strictly higher than that of a same-sized uniform image of
at least 3 × 3 pixels (the counterexample forces the distinct-bucket
hypothesis: colors in one bucket can tie with the uniform image). -/
theorem c3_checkerboard_vs_uniform (imgC imgU : ImageData) (c0 c1 : ℕ × ℕ × ℕ)
    (r2 g2 b2 : ℕ)
    (hW : imgC.width = imgU.width) (hH : imgC.height = imgU.height)
    (hw : 3 ≤ imgC.width) (hh : 3 ≤ imgC.height)
    (hC : IsCheckerboard imgC c0 c1)
    (hq : (ImageAnalyzer.quantize32 c0.1, ImageAnalyzer.quantize32 c0.2.1,
            ImageAnalyzer.quantize32 c0.2.2) ≠
          (ImageAnalyzer.quantize32 c1.1, ImageAnalyzer.quantize32 c1.2.1,
            ImageAnalyzer.quantize32 c1.2.2))
    (hU : IsConstImage imgU r2 g2 b2) :
    ImageAnalyzer.calculateComplexity imgU < ImageAnalyzer.calculateComplexity imgC := by
  rw [ImageAnalyzer.calculateComplexity_const hU (hW ▸ hw) (hH ▸ hh)]
  unfold ImageAnalyzer.calculateComplexity
  have hcv : ImageAnalyzer.calculateColorVariance imgC = 2 / 512 := by
    unfold ImageAnalyzer.calculateColorVariance
    rw [ImageAnalyzer.colorBuckets_checker hC (by omega) (by omega),
      Finset.card_insert_of_not_mem (by simpa using hq), Finset.card_singleton]
    norm_num
  have hed := ImageAnalyzer.calculateEdgeDensity_nonneg imgC hw hh
  have htc := ImageAnalyzer.calculateTextureComplexity_nonneg imgC
  rw [hcv]
  have hval : (1 : ℚ) / 640 ≤ 2 / 512 * 0.4 +
      ImageAnalyzer.calculateEdgeDensity imgC * 0.4 +
      ImageAnalyzer.calculateTextureComplexity imgC * 0.2 := by nlinarith
  rw [max_eq_right (by linarith)]
  exact lt_min (by norm_num) (by linarith)

/-- Witness for the amended C3: the black/white 3 × 3 checkerboard scores
strictly higher composite complexity than the uniform black 3 × 3 image. -/
theorem c3_checkerboard_vs_uniform_witness :
    ImageAnalyzer.calculateComplexity c3imgUniform <
      ImageAnalyzer.calculateComplexity c3imgCheckerBW :=
  c3_checkerboard_vs_uniform c3imgCheckerBW c3imgUniform (0, 0, 0) (255, 255, 255)
    0 0 0 rfl rfl (by norm_num [c3imgCheckerBW]) (by norm_num [c3imgCheckerBW])
    c3imgCheckerBW_isCheckerboard (by decide) c3imgUniform_isConst

/-!
Generic lemmas for the sources' pixel-write loops.  Every mutation loop of
the processors has the same shape: it folds over a pixel list and each step
writes state-independent values to offsets determined by the current pixel
(the conditions and values read only snapshots taken before the loop).  The
two lemmas below evaluate such folds pointwise.
-/

theorem foldl_step_eq {α : Type} (step : (ℤ → ℕ) → α → (ℤ → ℕ))
    (C : α → ℤ → Prop) [∀ p j, Decidable (C p j)] (V : α → ℤ → ℕ)
    (hstep : ∀ d p j, (step d p) j = if C p j then V p j else d j) :
    ∀ (ps : List α) (d : ℤ → ℕ) (j : ℤ) (v : ℕ),
      (∀ p ∈ ps, C p j → V p j = v) → d j = v → (ps.foldl step d) j = v := by
  intro ps
  induction ps with
  | nil => intro d j v _ hd; simpa using hd
  | cons a l ih =>
    intro d j v hall hd
    rw [List.foldl_cons]
    apply ih _ _ _ (fun p hp hc => hall p (List.mem_cons_of_mem a hp) hc)
    rw [hstep]
    by_cases hca : C a j
    · rw [if_pos hca]
      exact hall a (List.mem_cons_self a l) hca
    · rw [if_neg hca]
      exact hd

theorem foldl_step_write {α : Type} (step : (ℤ → ℕ) → α → (ℤ → ℕ))
    (C : α → ℤ → Prop) [∀ p j, Decidable (C p j)] (V : α → ℤ → ℕ)
    (hstep : ∀ d p j, (step d p) j = if C p j then V p j else d j) :
    ∀ (ps : List α) (d : ℤ → ℕ) (j : ℤ) (v : ℕ),
      (∀ p ∈ ps, C p j → V p j = v) → (∃ p ∈ ps, C p j) → (ps.foldl step d) j = v := by
  intro ps
  induction ps with
  | nil => rintro d j v _ ⟨p, hp, _⟩; cases hp
  | cons a l ih =>
    rintro d j v hall ⟨p, hp, hcp⟩
    rw [List.foldl_cons]
    by_cases hca : C a j
    · apply foldl_step_eq step C V hstep l _ _ _
        (fun q hq hc => hall q (List.mem_cons_of_mem a hq) hc)
      rw [hstep, if_pos hca]
      exact hall a (List.mem_cons_self a l) hca
    · rcases List.mem_cons.1 hp with rfl | hpl
      · exact absurd hcp hca
      · exact ih _ _ _ (fun q hq hc => hall q (List.mem_cons_of_mem a hq) hc)
          ⟨p, hpl, hcp⟩

theorem zidx_inj {w : ℕ} {x1 y1 x2 y2 : ℤ} (h1 : 0 ≤ x1) (h2 : x1 < w)
    (h3 : 0 ≤ x2) (h4 : x2 < w) (he : zidx w x1 y1 = zidx w x2 y2) :
    x1 = x2 ∧ y1 = y2 := by
  unfold zidx at he
  have he' : y1 * w + x1 = y2 * w + x2 := by linarith
  rcases lt_trichotomy y1 y2 with hy | hy | hy
  · exfalso
    have hstep : (1 : ℤ) * w ≤ (y2 - y1) * w :=
      mul_le_mul_of_nonneg_right (by linarith) (by positivity)
    nlinarith
  · subst hy
    constructor
    · linarith
    · rfl
  · exfalso
    have hstep : (1 : ℤ) * w ≤ (y1 - y2) * w :=
      mul_le_mul_of_nonneg_right (by linarith) (by positivity)
    nlinarith

theorem zidx_add_inj {w : ℕ} {x1 y1 x2 y2 k1 k2 : ℤ} (h1 : 0 ≤ x1) (h2 : x1 < w)
    (h3 : 0 ≤ x2) (h4 : x2 < w) (hk1 : 0 ≤ k1) (hk2 : k1 ≤ 3) (hk3 : 0 ≤ k2)
    (hk4 : k2 ≤ 3) (he : zidx w x1 y1 + k1 = zidx w x2 y2 + k2) :
    x1 = x2 ∧ y1 = y2 ∧ k1 = k2 := by
  have hbase : zidx w x1 y1 = zidx w x2 y2 ∧ k1 = k2 := by
    unfold zidx at he ⊢
    omega
  obtain ⟨hx, hy⟩ := zidx_inj h1 h2 h3 h4 hbase.1
  exact ⟨hx, hy, hbase.2⟩

namespace CanvasProcessor

/-- The 3 × 3 neighborhood offsets walked by the `dy`/`dx` loops of source
`CanvasProcessor.removeNoise` (the center offset (0, 0) included). -/
def neighborhood3x3 : List (ℤ × ℤ) := pixelsIn (-1) 2 (-1) 2

/-- The number of foreground pixels (alpha > 128) in the 3 × 3 neighborhood
of (x, y), the pixel itself included — exactly the `foregroundCount` both
loops of source `CanvasProcessor.removeNoise` accumulate. -/
def fgCount3x3 (data : ℤ → ℕ) (w : ℕ) (x y : ℤ) : ℕ :=
  (neighborhood3x3.filter
    (fun (d : ℤ × ℤ) => decide (128 < data (zidx w (x + d.1) (y + d.2) + 3)))).length

/-- The eight proper neighbors of a pixel (the claim's neighbor set). -/
def neighbors8 : List (ℤ × ℤ) :=
  [(-1, -1), (0, -1), (1, -1), (-1, 0), (1, 0), (-1, 1), (0, 1), (1, 1)]

/-- The number of foreground pixels among the eight proper neighbors of
(x, y): the count the claim and the spec sentence speak about. -/
def fgNbr8 (data : ℤ → ℕ) (w : ℕ) (x y : ℤ) : ℕ :=
  (neighbors8.filter
    (fun (d : ℤ × ℤ) => decide (128 < data (zidx w (x + d.1) (y + d.2) + 3)))).length

/-- One iteration of the erosion loop of source
`CanvasProcessor.removeNoise`: a foreground pixel (per the `originalData`
snapshot) whose 3 × 3 foreground count is below 5 has its alpha zeroed. -/
def erodeStep (originalData : ℤ → ℕ) (w : ℕ) (d : ℤ → ℕ) (p : ℤ × ℤ) : ℤ → ℕ :=
  if 128 < originalData (zidx w p.1 p.2 + 3) ∧ fgCount3x3 originalData w p.1 p.2 < 5 then
    fun j => if j = zidx w p.1 p.2 + 3 then 0 else d j
  else d

/-- One iteration of the dilation loop of source
`CanvasProcessor.removeNoise`: a pixel whose eroded alpha is exactly 0 and
that has at least 6 foreground pixels in its 3 × 3 eroded neighborhood gets
all four channels restored from the `originalData` snapshot. -/
def dilateStep (originalData erodedData : ℤ → ℕ) (w : ℕ) (d : ℤ → ℕ) (p : ℤ × ℤ) :
    ℤ → ℕ :=
  if erodedData (zidx w p.1 p.2 + 3) = 0 ∧ 6 ≤ fgCount3x3 erodedData w p.1 p.2 then
    fun j => if j = zidx w p.1 p.2 ∨ j = zidx w p.1 p.2 + 1 ∨ j = zidx w p.1 p.2 + 2 ∨
        j = zidx w p.1 p.2 + 3 then originalData j else d j
  else d

/-- The erosion loop of source `CanvasProcessor.removeNoise` (interior
pixels, reading the `originalData` snapshot, writing in place). -/
def erodePass (w h : ℕ) (data : ℤ → ℕ) : ℤ → ℕ :=
  (pixelsIn 1 ((w : ℤ) - 1) 1 ((h : ℤ) - 1)).foldl (erodeStep data w) data

/-- The dilation loop of source `CanvasProcessor.removeNoise`, starting from
the eroded buffer and reading the `originalData` and `erodedData`
snapshots. -/
def dilatePass (w h : ℕ) (originalData erodedData : ℤ → ℕ) : ℤ → ℕ :=
  (pixelsIn 1 ((w : ℤ) - 1) 1 ((h : ℤ) - 1)).foldl
    (dilateStep originalData erodedData w) erodedData

/-- Source `CanvasProcessor.removeNoise`: erosion then dilation. -/
def removeNoise (w h : ℕ) (data : ℤ → ℕ) : ℤ → ℕ :=
  dilatePass w h data (erodePass w h data)

theorem erodeStep_spec (originalData : ℤ → ℕ) (w : ℕ) (d : ℤ → ℕ) (p : ℤ × ℤ)
    (j : ℤ) :
    erodeStep originalData w d p j =
      if (128 < originalData (zidx w p.1 p.2 + 3) ∧
          fgCount3x3 originalData w p.1 p.2 < 5) ∧ j = zidx w p.1 p.2 + 3
      then 0 else d j := by
  unfold erodeStep
  by_cases hc : 128 < originalData (zidx w p.1 p.2 + 3) ∧
      fgCount3x3 originalData w p.1 p.2 < 5
  · by_cases hj : j = zidx w p.1 p.2 + 3 <;> simp [hc, hj]
  · simp [hc]

theorem dilateStep_spec (originalData erodedData : ℤ → ℕ) (w : ℕ) (d : ℤ → ℕ)
    (p : ℤ × ℤ) (j : ℤ) :
    dilateStep originalData erodedData w d p j =
      if (erodedData (zidx w p.1 p.2 + 3) = 0 ∧
          6 ≤ fgCount3x3 erodedData w p.1 p.2) ∧
         (j = zidx w p.1 p.2 ∨ j = zidx w p.1 p.2 + 1 ∨ j = zidx w p.1 p.2 + 2 ∨
          j = zidx w p.1 p.2 + 3)
      then originalData j else d j := by
  unfold dilateStep
  by_cases hc : erodedData (zidx w p.1 p.2 + 3) = 0 ∧
      6 ≤ fgCount3x3 erodedData w p.1 p.2
  · by_cases hj : j = zidx w p.1 p.2 ∨ j = zidx w p.1 p.2 + 1 ∨
        j = zidx w p.1 p.2 + 2 ∨ j = zidx w p.1 p.2 + 3 <;> simp [hc, hj]
  · simp [hc]

theorem erodePass_apply (w h : ℕ) (data : ℤ → ℕ) (x y : ℤ)
    (hx : 1 ≤ x) (hxw : x + 1 < (w : ℤ)) (hy : 1 ≤ y) (hyh : y + 1 < (h : ℤ)) :
    erodePass w h data (zidx w x y + 3) =
      if 128 < data (zidx w x y + 3) ∧ fgCount3x3 data w x y < 5 then 0
      else data (zidx w x y + 3) := by
  unfold erodePass
  set C : (ℤ × ℤ) → ℤ → Prop := fun p j =>
    (128 < data (zidx w p.1 p.2 + 3) ∧ fgCount3x3 data w p.1 p.2 < 5) ∧
      j = zidx w p.1 p.2 + 3 with hC
  by_cases hcond : 128 < data (zidx w x y + 3) ∧ fgCount3x3 data w x y < 5
  · rw [if_pos hcond]
    apply foldl_step_write (erodeStep data w) C (fun _ _ => 0)
      (fun d p j => erodeStep_spec data w d p j)
    · intro p _ _
      rfl
    · exact ⟨(x, y), mem_pixelsIn.2 ⟨by omega, by omega, by omega, by omega⟩,
        hcond, rfl⟩
  · rw [if_neg hcond]
    apply foldl_step_eq (erodeStep data w) C (fun _ _ => 0)
      (fun d p j => erodeStep_spec data w d p j)
    · intro p hp hcp
      exfalso
      rw [mem_pixelsIn] at hp
      obtain ⟨hcp1, hcp2⟩ := hcp
      obtain ⟨hpx, hpy, -⟩ := zidx_add_inj (by omega) (by omega) (by omega)
        (by omega) (by norm_num) (by norm_num) (by norm_num) (by norm_num) hcp2.symm
      apply hcond
      rw [show x = p.1 from hpx.symm, show y = p.2 from hpy.symm]
      exact hcp1
    · rfl

theorem dilatePass_apply (w h : ℕ) (originalData erodedData : ℤ → ℕ) (x y : ℤ)
    (k : ℤ) (hk0 : 0 ≤ k) (hk3 : k ≤ 3)
    (hx : 1 ≤ x) (hxw : x + 1 < (w : ℤ)) (hy : 1 ≤ y) (hyh : y + 1 < (h : ℤ)) :
    dilatePass w h originalData erodedData (zidx w x y + k) =
      if erodedData (zidx w x y + 3) = 0 ∧ 6 ≤ fgCount3x3 erodedData w x y
      then originalData (zidx w x y + k) else erodedData (zidx w x y + k) := by
  unfold dilatePass
  set C : (ℤ × ℤ) → ℤ → Prop := fun p j =>
    (erodedData (zidx w p.1 p.2 + 3) = 0 ∧ 6 ≤ fgCount3x3 erodedData w p.1 p.2) ∧
      (j = zidx w p.1 p.2 ∨ j = zidx w p.1 p.2 + 1 ∨ j = zidx w p.1 p.2 + 2 ∨
       j = zidx w p.1 p.2 + 3) with hC
  by_cases hcond : erodedData (zidx w x y + 3) = 0 ∧ 6 ≤ fgCount3x3 erodedData w x y
  · rw [if_pos hcond]
    apply foldl_step_write (dilateStep originalData erodedData w) C
      (fun _ => originalData)
      (fun d p j => dilateStep_spec originalData erodedData w d p j)
    · intro p _ _
      rfl
    · refine ⟨(x, y), mem_pixelsIn.2 ⟨by omega, by omega, by omega, by omega⟩,
        hcond, ?_⟩
      rcases show k = 0 ∨ k = 1 ∨ k = 2 ∨ k = 3 by omega with rfl | rfl | rfl | rfl
      · left; ring
      · right; left; ring
      · right; right; left; ring
      · right; right; right; ring
  · rw [if_neg hcond]
    apply foldl_step_eq (dilateStep originalData erodedData w) C
      (fun _ => originalData)
      (fun d p j => dilateStep_spec originalData erodedData w d p j)
    · intro p hp hcp
      exfalso
      rw [mem_pixelsIn] at hp
      obtain ⟨hcp1, hcp2⟩ := hcp
      have hpeq : p.1 = x ∧ p.2 = y := by
        rcases hcp2 with hj | hj | hj | hj
        · have := zidx_add_inj (by omega) (by omega) (by omega) (by omega)
            hk0 hk3 (by norm_num) (by norm_num)
            (show zidx w x y + k = zidx w p.1 p.2 + 0 by omega)
          exact ⟨this.1.symm, this.2.1.symm⟩
        · have := zidx_add_inj (by omega) (by omega) (by omega) (by omega)
            hk0 hk3 (by norm_num) (by norm_num)
            (show zidx w x y + k = zidx w p.1 p.2 + 1 by omega)
          exact ⟨this.1.symm, this.2.1.symm⟩
        · have := zidx_add_inj (by omega) (by omega) (by omega) (by omega)
            hk0 hk3 (by norm_num) (by norm_num)
            (show zidx w x y + k = zidx w p.1 p.2 + 2 by omega)
          exact ⟨this.1.symm, this.2.1.symm⟩
        · have := zidx_add_inj (by omega) (by omega) (by omega) (by omega)
            hk0 hk3 (by norm_num) (by norm_num)
            (show zidx w x y + k = zidx w p.1 p.2 + 3 by omega)
          exact ⟨this.1.symm, this.2.1.symm⟩
      apply hcond
      rw [← hpeq.1, ← hpeq.2]
      exact hcp1
    · rfl

end CanvasProcessor

theorem fgCount3x3_eq_fgNbr8 (data : ℤ → ℕ) (w : ℕ) (x y : ℤ) :
    CanvasProcessor.fgCount3x3 data w x y =
      CanvasProcessor.fgNbr8 data w x y +
        (if 128 < data (zidx w x y + 3) then 1 else 0) := by
  have h3 : CanvasProcessor.neighborhood3x3 =
      [(-1, -1), (0, -1), (1, -1), (-1, 0), (0, 0), (1, 0), (-1, 1), (0, 1), (1, 1)] := by
    decide
  unfold CanvasProcessor.fgCount3x3 CanvasProcessor.fgNbr8 CanvasProcessor.neighbors8
  rw [h3, ← List.countP_eq_length_filter, ← List.countP_eq_length_filter]
  simp only [List.countP_cons, List.countP_nil, decide_eq_true_eq, add_zero, zero_add]
  by_cases hc : 128 < data (zidx w x y + 3)
  · rw [if_pos hc]
    ring
  · rw [if_neg hc]
    ring

/-- Claim C1, amended: for an interior pixel, the erosion pass zeroes a
foreground pixel (alpha > 128) exactly when FEWER THAN 4 of its 8 neighbors
are foreground (the source counts the 3 × 3 block including the pixel
itself against the bound 5, so the pixel's own count absorbs one unit; the
claim's bound of 5 on the 8 proper neighbors is off by one), and the
dilation pass restores a pixel whose eroded alpha is 0 to its original
four channel values exactly when at least 6 of its 8 neighbors are
foreground in the eroded buffer. -/
theorem c1_removeNoise_amended (w h : ℕ) (data : ℤ → ℕ) (x y k : ℤ)
    (hk0 : 0 ≤ k) (hk3 : k ≤ 3)
    (hx : 1 ≤ x) (hxw : x + 1 < (w : ℤ)) (hy : 1 ≤ y) (hyh : y + 1 < (h : ℤ)) :
    (CanvasProcessor.erodePass w h data (zidx w x y + 3) =
      if 128 < data (zidx w x y + 3) ∧ CanvasProcessor.fgNbr8 data w x y < 4 then 0
      else data (zidx w x y + 3)) ∧
    (CanvasProcessor.removeNoise w h data (zidx w x y + k) =
      if CanvasProcessor.erodePass w h data (zidx w x y + 3) = 0 ∧
          6 ≤ CanvasProcessor.fgNbr8 (CanvasProcessor.erodePass w h data) w x y
      then data (zidx w x y + k)
      else CanvasProcessor.erodePass w h data (zidx w x y + k)) := by
  constructor
  · rw [CanvasProcessor.erodePass_apply w h data x y hx hxw hy hyh]
    apply if_congr ?_ rfl rfl
    rw [fgCount3x3_eq_fgNbr8]
    constructor
    · rintro ⟨ha, hc⟩
      rw [if_pos ha] at hc
      exact ⟨ha, by omega⟩
    · rintro ⟨ha, hc⟩
      refine ⟨ha, ?_⟩
      rw [if_pos ha]
      omega
  · unfold CanvasProcessor.removeNoise
    rw [CanvasProcessor.dilatePass_apply w h data (CanvasProcessor.erodePass w h data)
      x y k hk0 hk3 hx hxw hy hyh]
    apply if_congr ?_ rfl rfl
    rw [fgCount3x3_eq_fgNbr8]
    constructor
    · rintro ⟨hz, hc⟩
      rw [hz] at hc
      rw [if_neg (by omega : ¬ (128 : ℕ) < 0)] at hc
      exact ⟨hz, by omega⟩
    · rintro ⟨hz, hc⟩
      refine ⟨hz, ?_⟩
      rw [hz, if_neg (by omega : ¬ (128 : ℕ) < 0)]
      omega

/-- The 3 × 3 plus-shaped alpha mask: the center pixel and its four edge
neighbors are foreground (alpha 255), the corners are background; every RGB
byte is 7. -/
def c1mask : ℤ → ℕ := fun j =>
  if j % 4 = 3 then
    (if j / 4 = 1 ∨ j / 4 = 3 ∨ j / 4 = 4 ∨ j / 4 = 5 ∨ j / 4 = 7 then 255 else 0)
  else 7

/-- Claim C1 counterexample: in the 3 × 3 plus-shaped mask the center pixel
(1, 1) is foreground with exactly 4 of its 8 neighbors foreground; the
claim says it is zeroed by erosion (4 < 5), but the source's erosion counts
the 3 × 3 block including the pixel itself (5 foreground there, not below
5) and leaves its alpha at 255. -/
theorem c1_erosion_counterexample :
    128 < c1mask (zidx 3 1 1 + 3) ∧
    CanvasProcessor.fgNbr8 c1mask 3 1 1 = 4 ∧
    CanvasProcessor.fgNbr8 c1mask 3 1 1 < 5 ∧
    CanvasProcessor.erodePass 3 3 c1mask (zidx 3 1 1 + 3) = 255 := by decide

/-- Witness for the amended C1 at the concrete plus-shaped mask. -/
theorem c1_removeNoise_amended_witness :
    (CanvasProcessor.erodePass 3 3 c1mask (zidx 3 1 1 + 3) =
      if 128 < c1mask (zidx 3 1 1 + 3) ∧ CanvasProcessor.fgNbr8 c1mask 3 1 1 < 4 then 0
      else c1mask (zidx 3 1 1 + 3)) ∧
    (CanvasProcessor.removeNoise 3 3 c1mask (zidx 3 1 1 + 3) =
      if CanvasProcessor.erodePass 3 3 c1mask (zidx 3 1 1 + 3) = 0 ∧
          6 ≤ CanvasProcessor.fgNbr8 (CanvasProcessor.erodePass 3 3 c1mask) 3 1 1
      then c1mask (zidx 3 1 1 + 3)
      else CanvasProcessor.erodePass 3 3 c1mask (zidx 3 1 1 + 3)) :=
  c1_removeNoise_amended 3 3 c1mask 1 1 3 (by norm_num) (by norm_num)
    (by norm_num) (by norm_num) (by norm_num) (by norm_num)

/-!
Fallback chain (claim C4).  The three processors' `process` methods form a
try/catch chain: `TensorFlowProcessor.process` returns its own result on
success and otherwise returns `MediaPipeProcessor.process`; that in turn
falls back to `CanvasProcessor.process`, whose catch block rethrows.  Each
tier's own attempt (external model load, inference, compositing) is modelled
by its outcome, an `Except`: the chain logic below is the exact control
flow of the three catch blocks.
-/

namespace CanvasProcessor

/-- Source `CanvasProcessor.process`: no external dependency; on failure of
its own body the catch block rethrows a fresh error to the caller. -/
def processResult {α : Type} (fastOutcome : Except String α) : Except String α :=
  match fastOutcome with
  | .ok a => .ok a
  | .error _ => .error "image processing failed"

end CanvasProcessor

namespace MediaPipeProcessor

/-- Source `MediaPipeProcessor.process`: on any error of the balanced
tier's own attempt (load failure, init timeout, inference timeout), the
catch block runs `CanvasProcessor.process`. -/
def processResult {α : Type} (balancedStep fastOutcome : Except String α) :
    Except String α :=
  match balancedStep with
  | .ok a => .ok a
  | .error _ => CanvasProcessor.processResult fastOutcome

end MediaPipeProcessor

namespace TensorFlowProcessor

/-- Source `TensorFlowProcessor.process`: on any error of the precise
tier's own attempt, the catch block runs `MediaPipeProcessor.process`. -/
def processResult {α : Type} (preciseStep balancedStep fastOutcome : Except String α) :
    Except String α :=
  match preciseStep with
  | .ok a => .ok a
  | .error _ => MediaPipeProcessor.processResult balancedStep fastOutcome

end TensorFlowProcessor

/-- Claim C4: when the precise tier's own step fails the pipeline degrades
to the balanced tier; when that fails too it degrades to the fast tier and
returns exactly the fast tier's result; the overall call succeeds if and
only if the fast tier succeeds, so only a fast-tier failure propagates to
the caller. -/
theorem c4_fallback_chain {α : Type} (preciseStep balancedStep fastOutcome : Except String α)
    (e1 e2 : String) (hp : preciseStep = Except.error e1)
    (hb : balancedStep = Except.error e2) :
    TensorFlowProcessor.processResult preciseStep balancedStep fastOutcome =
      MediaPipeProcessor.processResult balancedStep fastOutcome ∧
    TensorFlowProcessor.processResult preciseStep balancedStep fastOutcome =
      CanvasProcessor.processResult fastOutcome ∧
    (TensorFlowProcessor.processResult preciseStep balancedStep fastOutcome).isOk =
      fastOutcome.isOk := by
  subst hp
  subst hb
  refine ⟨rfl, rfl, ?_⟩
  unfold TensorFlowProcessor.processResult MediaPipeProcessor.processResult
    CanvasProcessor.processResult
  cases fastOutcome <;> rfl

/-- Witness for C4: both providers down, fast tier succeeds with a value,
and the chain returns a success. -/
theorem c4_fallback_chain_witness :
    TensorFlowProcessor.processResult (Except.error "precise down")
        (Except.error "balanced down") (Except.ok 7) =
      MediaPipeProcessor.processResult (Except.error "balanced down") (Except.ok 7) ∧
    TensorFlowProcessor.processResult (Except.error "precise down")
        (Except.error "balanced down") (Except.ok 7) =
      CanvasProcessor.processResult (Except.ok 7) ∧
    (TensorFlowProcessor.processResult (Except.error "precise down")
        (Except.error "balanced down") (Except.ok (7 : ℕ))).isOk =
      (Except.ok (7 : ℕ) : Except String ℕ).isOk :=
  c4_fallback_chain (Except.error "precise down") (Except.error "balanced down")
    (Except.ok 7) "precise down" "balanced down" rfl rfl

/-!
Gaussian edge feathering (claim C7).  Source `MediaPipeProcessor.edgeFeathering`
(sigma 1.0, radius 2) and source `TensorFlowProcessor.edgeOptimization`
(adaptive sigma in [0.5, 2.0], radius = ceil(2 sigma)) accumulate the same
weighted average: `distance = Math.sqrt(dx*dx + dy*dy)`,
`weight = Math.exp(-(distance*distance) / (2*sigma*sigma))`, and finally
`data[index+3] = alphaSum / weightSum`.
-/

/-- The Gaussian weight both feathering loops compute for offset (dx, dy). -/
noncomputable def gaussWeight (sigma : ℝ) (dx dy : ℤ) : ℝ :=
  Real.exp (-(Real.sqrt ((dx : ℝ) * dx + (dy : ℝ) * dy) *
    Real.sqrt ((dx : ℝ) * dx + (dy : ℝ) * dy)) / (2 * sigma * sigma))

/-- The `weightSum` accumulator of both feathering loops. -/
noncomputable def gaussWeightSum (sigma : ℝ) (radius : ℤ) : ℝ :=
  ∑ dy ∈ Finset.Icc (-radius) radius, ∑ dx ∈ Finset.Icc (-radius) radius,
    gaussWeight sigma dx dy

/-- The `alphaSum` accumulator of both feathering loops: alpha values read
from the pre-pass snapshot, weighted by the Gaussian kernel. -/
noncomputable def gaussAlphaSum (data : ℤ → ℕ) (w : ℕ) (x y : ℤ) (sigma : ℝ)
    (radius : ℤ) : ℝ :=
  ∑ dy ∈ Finset.Icc (-radius) radius, ∑ dx ∈ Finset.Icc (-radius) radius,
    (data (zidx w (x + dx) (y + dy) + 3) : ℝ) * gaussWeight sigma dx dy

/-- The value `alphaSum / weightSum` both loops store into the alpha byte. -/
noncomputable def gaussNewAlpha (data : ℤ → ℕ) (w : ℕ) (x y : ℤ) (sigma : ℝ)
    (radius : ℤ) : ℝ :=
  gaussAlphaSum data w x y sigma radius / gaussWeightSum sigma radius

namespace TensorFlowProcessor

/-- The adaptive sigma of source `TensorFlowProcessor.edgeOptimization`:
`Math.max(0.5, Math.min(2.0, edgeStrength / 50))`. -/
noncomputable def tfSigma (edgeStrength : ℕ) : ℝ :=
  max 0.5 (min 2.0 ((edgeStrength : ℝ) / 50))

/-- The adaptive radius of source `TensorFlowProcessor.edgeOptimization`:
`Math.ceil(sigma * 2)`. -/
noncomputable def tfRadius (edgeStrength : ℕ) : ℤ := ⌈tfSigma edgeStrength * 2⌉

end TensorFlowProcessor

theorem gaussWeight_pos (sigma : ℝ) (dx dy : ℤ) : 0 < gaussWeight sigma dx dy :=
  Real.exp_pos _

theorem gaussWeight_center (sigma : ℝ) : gaussWeight sigma 0 0 = 1 := by
  unfold gaussWeight
  norm_num

/-- Claim C7: wherever either feathering loop applies the Gaussian-weighted
average, the weight sum is at least the center pixel's own weight of 1 (so
the final division never divides by zero), and the resulting alpha value
lies in [0, 255]; moreover the precise tier's adaptive sigma is at least
0.5 and its radius is nonnegative, so the statement covers both tiers. -/
theorem c7_feathering_bounds (data : ℤ → ℕ) (w : ℕ) (x y : ℤ) (sigma : ℝ)
    (radius : ℤ) (edgeStrength : ℕ) (hs : 0 < sigma) (hr : 0 ≤ radius)
    (hb : ∀ j, data j ≤ 255) :
    1 ≤ gaussWeightSum sigma radius ∧
    0 ≤ gaussNewAlpha data w x y sigma radius ∧
    gaussNewAlpha data w x y sigma radius ≤ 255 ∧
    (0.5 : ℝ) ≤ TensorFlowProcessor.tfSigma edgeStrength ∧
    0 ≤ TensorFlowProcessor.tfRadius edgeStrength := by
  have hzero : (0 : ℤ) ∈ Finset.Icc (-radius) radius := by
    rw [Finset.mem_Icc]
    omega
  have hwpos : ∀ dy ∈ Finset.Icc (-radius) radius,
      (0 : ℝ) ≤ ∑ dx ∈ Finset.Icc (-radius) radius, gaussWeight sigma dx dy := by
    intro dy _
    exact Finset.sum_nonneg (fun dx _ => (gaussWeight_pos sigma dx dy).le)
  have hws : 1 ≤ gaussWeightSum sigma radius := by
    unfold gaussWeightSum
    calc (1 : ℝ) = gaussWeight sigma 0 0 := (gaussWeight_center sigma).symm
      _ ≤ ∑ dx ∈ Finset.Icc (-radius) radius, gaussWeight sigma dx 0 :=
          Finset.single_le_sum (fun dx _ => (gaussWeight_pos sigma dx 0).le) hzero
      _ ≤ ∑ dy ∈ Finset.Icc (-radius) radius,
            ∑ dx ∈ Finset.Icc (-radius) radius, gaussWeight sigma dx dy :=
          Finset.single_le_sum hwpos hzero
  have hwspos : 0 < gaussWeightSum sigma radius := lt_of_lt_of_le one_pos hws
  have halpha0 : 0 ≤ gaussAlphaSum data w x y sigma radius := by
    unfold gaussAlphaSum
    apply Finset.sum_nonneg
    intro dy _
    apply Finset.sum_nonneg
    intro dx _
    exact mul_nonneg (Nat.cast_nonneg _) (gaussWeight_pos sigma dx dy).le
  have halphaub : gaussAlphaSum data w x y sigma radius ≤
      255 * gaussWeightSum sigma radius := by
    unfold gaussAlphaSum gaussWeightSum
    rw [Finset.mul_sum]
    apply Finset.sum_le_sum
    intro dy _
    rw [Finset.mul_sum]
    apply Finset.sum_le_sum
    intro dx _
    apply mul_le_mul_of_nonneg_right ?_ (gaussWeight_pos sigma dx dy).le
    exact_mod_cast hb (zidx w (x + dx) (y + dy) + 3)
  refine ⟨hws, ?_, ?_, le_max_left _ _, ?_⟩
  · exact div_nonneg halpha0 hwspos.le
  · rw [gaussNewAlpha, div_le_iff₀ hwspos]
    linarith
  · apply Int.ceil_nonneg
    have : (0.5 : ℝ) ≤ TensorFlowProcessor.tfSigma edgeStrength := le_max_left _ _
    nlinarith

/-- Witness for C7 on the all-zero buffer with the balanced tier's fixed
sigma 1 and radius 2. -/
theorem c7_feathering_bounds_witness :
    1 ≤ gaussWeightSum 1 2 ∧
    0 ≤ gaussNewAlpha (fun _ => 0) 5 2 2 1 2 ∧
    gaussNewAlpha (fun _ => 0) 5 2 2 1 2 ≤ 255 ∧
    (0.5 : ℝ) ≤ TensorFlowProcessor.tfSigma 0 ∧
    0 ≤ TensorFlowProcessor.tfRadius 0 :=
  c7_feathering_bounds (fun _ => 0) 5 2 2 1 2 0 one_pos (by norm_num)
    (fun _ => by norm_num)

/-- Storing a JS number into a `Uint8ClampedArray` slot: clamp to [0, 255]
and round to the nearest integer, ties to even. -/
noncomputable def toClampedByte (v : ℝ) : ℕ :=
  if v ≤ 0 then 0
  else if 255 ≤ v then 255
  else if Int.fract v = 1 / 2 then
    (if ⌊v⌋ % 2 = 0 then ⌊v⌋.toNat else (⌊v⌋ + 1).toNat)
  else (round v).toNat

namespace CanvasProcessor

/-- The nine kernel offsets of `CanvasProcessor.getSobelX` / `getSobelY`. -/
def sobelOffsets : List (ℤ × ℤ) :=
  [(-1, -1), (0, -1), (1, -1), (-1, 0), (0, 0), (1, 0), (-1, 1), (0, 1), (1, 1)]

/-- The inline luminance both Sobel helpers compute from a pixel's base
offset: `0.299 * data[index] + 0.587 * data[index+1] + 0.114 * data[index+2]`. -/
def grayOf (data : ℤ → ℕ) (i : ℤ) : ℚ :=
  0.299 * data i + 0.587 * data (i + 1) + 0.114 * data (i + 2)

/-- Source `CanvasProcessor.getSobelX`. -/
def getSobelX (data : ℤ → ℕ) (x y : ℤ) (w : ℕ) : ℚ :=
  ((sobelOffsets.zip ([-1, 0, 1, -2, 0, 2, -1, 0, 1] : List ℚ)).map
    (fun ok => grayOf data (zidx w (x + ok.1.1) (y + ok.1.2)) * ok.2)).sum

/-- Source `CanvasProcessor.getSobelY`. -/
def getSobelY (data : ℤ → ℕ) (x y : ℤ) (w : ℕ) : ℚ :=
  ((sobelOffsets.zip ([-1, -2, -1, 0, 0, 0, 1, 2, 1] : List ℚ)).map
    (fun ok => grayOf data (zidx w (x + ok.1.1) (y + ok.1.2)) * ok.2)).sum

open Classical in
/-- Source `CanvasProcessor.createEdgeMap`: a width × height single-channel
map, 255 where the interior Sobel magnitude exceeds 30, 0 elsewhere. -/
noncomputable def createEdgeMap (w h : ℕ) (data : ℤ → ℕ) : ℤ → ℕ :=
  (pixelsIn 1 ((w : ℤ) - 1) 1 ((h : ℤ) - 1)).foldl
    (fun em p => fun i =>
      if i = p.2 * w + p.1 then
        (if 30 < Real.sqrt ((getSobelX data p.1 p.2 w * getSobelX data p.1 p.2 w +
            getSobelY data p.1 p.2 w * getSobelY data p.1 p.2 w : ℚ)) then 255 else 0)
      else em i)
    (fun _ => 0)

/-- Source `CanvasProcessor.isNearEdge` with its default radius 2: some
in-bounds pixel within the 5 × 5 window around (x, y) is marked in the
edge map. -/
def isNearEdge (x y : ℤ) (edgeMap : ℤ → ℕ) (w h : ℕ) : Prop :=
  ∃ d ∈ pixelsIn (-2) 3 (-2) 3,
    (0 ≤ x + d.1 ∧ x + d.1 < w ∧ 0 ≤ y + d.2 ∧ y + d.2 < h) ∧
    0 < edgeMap ((y + d.2) * w + (x + d.1))

open Classical in
/-- Source `CanvasProcessor.isBackgroundPixel`: the pixel is within
Euclidean RGB distance of some detected background color, with threshold
40 near an edge and 60 elsewhere. -/
noncomputable def isBackgroundPixel (r g b : ℕ) (backgroundColors : List (ℕ × ℕ × ℕ))
    (edgeMap : ℤ → ℕ) (x y : ℤ) (w h : ℕ) : Prop :=
  ∃ bg ∈ backgroundColors,
    Real.sqrt (((r : ℝ) - bg.1) ^ 2 + ((g : ℝ) - bg.2.1) ^ 2 + ((b : ℝ) - bg.2.2) ^ 2) <
      (if isNearEdge x y edgeMap w h then 40 else 60)

open Classical in
/-- Source `CanvasProcessor.getEdgeDistance`: minimum Euclidean distance to
a marked edge pixel within the 11 × 11 search window; 10 when none is found
(the `Infinity` sentinel case). -/
noncomputable def getEdgeDistance (x y : ℤ) (edgeMap : ℤ → ℕ) (w h : ℕ) : ℝ :=
  let ds := ((pixelsIn (-5) 6 (-5) 6).filter
    (fun d => decide ((0 ≤ x + d.1 ∧ x + d.1 < w ∧ 0 ≤ y + d.2 ∧ y + d.2 < h) ∧
      0 < edgeMap ((y + d.2) * w + (x + d.1))))).map
    (fun d => Real.sqrt ((d.1 : ℝ) * d.1 + (d.2 : ℝ) * d.2))
  match ds.foldr (fun v acc => match acc with
    | none => some v
    | some m => some (min v m)) none with
  | none => 10
  | some m => m

/-- The per-pixel quantization of `detectBackgroundColors`:
`Math.floor(v / 16) * 16`. -/
def quantize16 (v : ℕ) : ℕ := v / 16 * 16

/-- The border sample points of source `CanvasProcessor.detectBackgroundColors`:
top and bottom rows at x stride 5, then left and right columns at y stride 5. -/
def samplePoints (w h : ℕ) : List (ℤ × ℤ) :=
  (((List.range w).filter (fun (x : ℕ) => decide (x % 5 = 0))).flatMap
    (fun (x : ℕ) => [((x : ℤ), 0), ((x : ℤ), (h : ℤ) - 1)])) ++
  (((List.range h).filter (fun (y : ℕ) => decide (y % 5 = 0))).flatMap
    (fun (y : ℕ) => [((0 : ℤ), (y : ℤ)), ((w : ℤ) - 1, (y : ℤ))]))

/-- One `colorMap.set(key, (get ?? 0) + 1)` update on the insertion-ordered
map (a JS `Map` keeps insertion order). -/
def bumpColor (m : List ((ℕ × ℕ × ℕ) × ℕ)) (k : ℕ × ℕ × ℕ) :
    List ((ℕ × ℕ × ℕ) × ℕ) :=
  if m.any (fun e => decide (e.1 = k)) then
    m.map (fun e => if e.1 = k then (e.1, e.2 + 1) else e)
  else m ++ [(k, 1)]

/-- Source `CanvasProcessor.detectBackgroundColors`: tally the quantized
border sample colors, stable-sort by descending count (JS `sort` is
stable), keep the top three. -/
def detectBackgroundColors (w h : ℕ) (data : ℤ → ℕ) : List (ℕ × ℕ × ℕ) :=
  let colorMap := (samplePoints w h).foldl
    (fun m q => bumpColor m
      (quantize16 (data (zidx w q.1 q.2)), quantize16 (data (zidx w q.1 q.2 + 1)),
        quantize16 (data (zidx w q.1 q.2 + 2)))) []
  ((colorMap.mergeSort (fun a b => decide (b.2 ≤ a.2))).take 3).map (fun e => e.1)

open Classical in
/-- One iteration of the main loop of source
`CanvasProcessor.removeBackground` at pixel p (byte offset 4p): background
pixels get alpha 0; other pixels within edge distance 3 get their alpha
linearly reduced by up to 50 × (3 − distance) / 3. -/
noncomputable def removeBgStep (w h : ℕ) (backgroundColors : List (ℕ × ℕ × ℕ))
    (edgeMap : ℤ → ℕ) (d : ℤ → ℕ) (p : ℕ) : ℤ → ℕ :=
  let x : ℤ := (p % w : ℕ)
  let y : ℤ := (p / w : ℕ)
  let r := d (4 * (p : ℤ))
  let g := d (4 * (p : ℤ) + 1)
  let b := d (4 * (p : ℤ) + 2)
  if isBackgroundPixel r g b backgroundColors edgeMap x y w h then
    fun j => if j = 4 * (p : ℤ) + 3 then 0 else d j
  else
    let edgeDistance := getEdgeDistance x y edgeMap w h
    if edgeDistance < 3 then
      fun j => if j = 4 * (p : ℤ) + 3 then
        toClampedByte (max 0 ((d (4 * (p : ℤ) + 3) : ℝ) -
          50 * (3 - edgeDistance) / 3))
      else d j
    else d

/-- Source `CanvasProcessor.removeBackground`: detect background colors,
build the edge map, classify and soften every pixel's alpha, then run
`removeNoise`.  Width and height are those of the input `ImageData`. -/
noncomputable def removeBackground (img : ImageData) : ImageData :=
  let w := img.width
  let h := img.height
  let backgroundColors := detectBackgroundColors w h img.data
  let edgeMap := createEdgeMap w h img.data
  let afterLoop := (List.range (w * h)).foldl
    (removeBgStep w h backgroundColors edgeMap) img.data
  { img with data := removeNoise w h afterLoop }

end CanvasProcessor

theorem foldl_preserves {α : Type} (step : (ℤ → ℕ) → α → (ℤ → ℕ)) (P : ℤ → Prop)
    (hstep : ∀ d p j, P j → (step d p) j = d j) :
    ∀ (ps : List α) (d : ℤ → ℕ) (j : ℤ), P j → (ps.foldl step d) j = d j := by
  intro ps
  induction ps with
  | nil => intro d j _; rfl
  | cons a l ih =>
    intro d j hp
    rw [List.foldl_cons, ih _ _ hp, hstep _ _ _ hp]

theorem removeBgStep_frame (w h : ℕ) (bg : List (ℕ × ℕ × ℕ)) (em : ℤ → ℕ)
    (d : ℤ → ℕ) (p : ℕ) (j : ℤ) (hj : j % 4 ≠ 3) :
    CanvasProcessor.removeBgStep w h bg em d p j = d j := by
  have hne : j ≠ 4 * (p : ℤ) + 3 := by omega
  unfold CanvasProcessor.removeBgStep
  dsimp only
  split_ifs with h1 h2
  · dsimp only
    rw [if_neg hne]
  · dsimp only
    rw [if_neg hne]
  · rfl

theorem erodePass_frame (w h : ℕ) (d : ℤ → ℕ) (j : ℤ) (hj : j % 4 ≠ 3) :
    CanvasProcessor.erodePass w h d j = d j := by
  unfold CanvasProcessor.erodePass
  apply foldl_preserves _ (fun i => i % 4 ≠ 3) ?_ _ _ _ hj
  intro d' p j' hj'
  rw [CanvasProcessor.erodeStep_spec, if_neg]
  rintro ⟨-, hoff⟩
  unfold zidx at hoff
  omega

theorem removeNoise_frame (w h : ℕ) (d : ℤ → ℕ) (j : ℤ) (hj : j % 4 ≠ 3) :
    CanvasProcessor.removeNoise w h d j = d j := by
  unfold CanvasProcessor.removeNoise CanvasProcessor.dilatePass
  set eroded := CanvasProcessor.erodePass w h d with herodedDef
  apply foldl_step_eq (CanvasProcessor.dilateStep d eroded w)
    (fun p i => (eroded (zidx w p.1 p.2 + 3) = 0 ∧
        6 ≤ CanvasProcessor.fgCount3x3 eroded w p.1 p.2) ∧
      (i = zidx w p.1 p.2 ∨ i = zidx w p.1 p.2 + 1 ∨ i = zidx w p.1 p.2 + 2 ∨
       i = zidx w p.1 p.2 + 3))
    (fun _ => d)
    (fun d' p i => CanvasProcessor.dilateStep_spec d eroded w d' p i)
  · intro p _ _
    rfl
  · rw [herodedDef]
    exact erodePass_frame w h d j hj

/-- Claim C10: the fast tier's whole `removeBackground` pass (background
classification, edge falloff, and noise removal included) never changes a
red, green, or blue byte, and the output raster has the input's width and
height.  The dilation step does assign RGB bytes, but only values copied
from the snapshot whose RGB bytes are untouched, so every non-alpha byte of
the output equals the input's. -/
theorem c10_removeBackground_rgb_frame (img : ImageData) (j : ℤ) (hj : j % 4 ≠ 3) :
    (CanvasProcessor.removeBackground img).width = img.width ∧
    (CanvasProcessor.removeBackground img).height = img.height ∧
    (CanvasProcessor.removeBackground img).data j = img.data j := by
  refine ⟨rfl, rfl, ?_⟩
  show CanvasProcessor.removeNoise img.width img.height
      ((List.range (img.width * img.height)).foldl
        (CanvasProcessor.removeBgStep img.width img.height
          (CanvasProcessor.detectBackgroundColors img.width img.height img.data)
          (CanvasProcessor.createEdgeMap img.width img.height img.data))
        img.data) j = img.data j
  rw [removeNoise_frame _ _ _ _ hj]
  exact foldl_preserves _ (fun i => i % 4 ≠ 3)
    (fun d' p j' hj' => removeBgStep_frame _ _ _ _ d' p j' hj') _ _ _ hj

/-- Witness for C10 at a concrete byte offset of a concrete raster. -/
theorem c10_removeBackground_rgb_frame_witness :
    (CanvasProcessor.removeBackground ⟨3, 3, fun _ => 9⟩).width = 3 ∧
    (CanvasProcessor.removeBackground ⟨3, 3, fun _ => 9⟩).height = 3 ∧
    (CanvasProcessor.removeBackground ⟨3, 3, fun _ => 9⟩).data 17 = 9 :=
  c10_removeBackground_rgb_frame ⟨3, 3, fun _ => 9⟩ 17 (by norm_num)

namespace MediaPipeProcessor

/-- One iteration of source `MediaPipeProcessor.medianFilter`: the alpha at
(x, y) becomes the middle element of the sorted 3 × 3 alpha neighborhood
read from the pre-pass snapshot. -/
def medianFilterStep (originalData : ℤ → ℕ) (w : ℕ) (d : ℤ → ℕ) (p : ℤ × ℤ) :
    ℤ → ℕ :=
  let alphaValues := (pixelsIn (-1) 2 (-1) 2).map
    (fun dp => originalData (zidx w (p.1 + dp.1) (p.2 + dp.2) + 3))
  fun j => if j = zidx w p.1 p.2 + 3 then
    (alphaValues.mergeSort (fun a b => decide (a ≤ b))).getD 4 0
  else d j

/-- Source `MediaPipeProcessor.medianFilter`: 3 × 3 alpha median over the
interior, reading the snapshot taken at entry. -/
def medianFilter (w h : ℕ) (data : ℤ → ℕ) : ℤ → ℕ :=
  (pixelsIn 1 ((w : ℤ) - 1) 1 ((h : ℤ) - 1)).foldl (medianFilterStep data w) data

/-- One erosion iteration of source
`MediaPipeProcessor.morphologicalOperations`: 3 × 3 minimum of the snapshot
alphas (accumulator starts at 255). -/
def morphErodeStep (tempData : ℤ → ℕ) (w : ℕ) (d : ℤ → ℕ) (p : ℤ × ℤ) : ℤ → ℕ :=
  fun j => if j = zidx w p.1 p.2 + 3 then
    ((pixelsIn (-1) 2 (-1) 2).map
      (fun dp => tempData (zidx w (p.1 + dp.1) (p.2 + dp.2) + 3))).foldl min 255
  else d j

/-- One dilation iteration of source
`MediaPipeProcessor.morphologicalOperations`: 3 × 3 maximum of the eroded
snapshot alphas (accumulator starts at 0). -/
def morphDilateStep (erodedData : ℤ → ℕ) (w : ℕ) (d : ℤ → ℕ) (p : ℤ × ℤ) : ℤ → ℕ :=
  fun j => if j = zidx w p.1 p.2 + 3 then
    ((pixelsIn (-1) 2 (-1) 2).map
      (fun dp => erodedData (zidx w (p.1 + dp.1) (p.2 + dp.2) + 3))).foldl max 0
  else d j

/-- Source `MediaPipeProcessor.morphologicalOperations`: morphological open
(3 × 3 min, then 3 × 3 max over the eroded snapshot). -/
def morphologicalOperations (w h : ℕ) (data : ℤ → ℕ) : ℤ → ℕ :=
  let tempData := data
  let afterErosion :=
    (pixelsIn 1 ((w : ℤ) - 1) 1 ((h : ℤ) - 1)).foldl (morphErodeStep tempData w) data
  let erodedData := afterErosion
  (pixelsIn 1 ((w : ℤ) - 1) 1 ((h : ℤ) - 1)).foldl (morphDilateStep erodedData w)
    afterErosion

/-- Source `MediaPipeProcessor.isEdgePixel`: some in-bounds 4-neighbor's
alpha differs from the center alpha by more than 100. -/
def isEdgePixel (x y : ℤ) (data : ℤ → ℕ) (w h : ℕ) : Prop :=
  ∃ n ∈ ([(x - 1, y), (x + 1, y), (x, y - 1), (x, y + 1)] : List (ℤ × ℤ)),
    (0 ≤ n.1 ∧ n.1 < w ∧ 0 ≤ n.2 ∧ n.2 < h) ∧
    100 < |(data (zidx w x y + 3) : ℤ) - data (zidx w n.1 n.2 + 3)|

open Classical in
/-- One iteration of source `MediaPipeProcessor.edgeFeathering`: edge pixels
(per the snapshot) get the Gaussian-weighted alpha average with sigma 1 and
radius 2. -/
noncomputable def edgeFeatheringStep (originalData : ℤ → ℕ) (w h : ℕ) (d : ℤ → ℕ)
    (p : ℤ × ℤ) : ℤ → ℕ :=
  if isEdgePixel p.1 p.2 originalData w h then
    fun j => if j = zidx w p.1 p.2 + 3 then
      toClampedByte (gaussNewAlpha originalData w p.1 p.2 1 2)
    else d j
  else d

/-- Source `MediaPipeProcessor.edgeFeathering`: Gaussian feathering of edge
pixels, radius 2, sigma 1. -/
noncomputable def edgeFeathering (w h : ℕ) (data : ℤ → ℕ) : ℤ → ℕ :=
  (pixelsIn 2 ((w : ℤ) - 2) 2 ((h : ℤ) - 2)).foldl (edgeFeatheringStep data w h) data

/-- Source `MediaPipeProcessor.postProcessSegmentation`: median filter, then
morphological open, then edge feathering — the balanced tier's mask
post-processing. -/
noncomputable def postProcessSegmentation (w h : ℕ) (data : ℤ → ℕ) : ℤ → ℕ :=
  edgeFeathering w h (morphologicalOperations w h (medianFilter w h data))

end MediaPipeProcessor

namespace TensorFlowProcessor

/-- The range weight of source `TensorFlowProcessor.bilateralFilter`:
`rangeDistance = Math.abs(centerAlpha - nAlpha)`,
`rangeWeight = exp(-(rangeDistance^2) / (2 * 50^2))`. -/
noncomputable def rangeWeight (centerAlpha nAlpha : ℕ) : ℝ :=
  Real.exp (-(|(centerAlpha : ℝ) - nAlpha| * |(centerAlpha : ℝ) - nAlpha|) /
    (2 * 50 * 50))

/-- The `weightSum` accumulator of source
`TensorFlowProcessor.bilateralFilter` at (x, y): spatial Gaussian with
sigma 5, radius 5, times the range weight. -/
noncomputable def bilateralWeightSum (data : ℤ → ℕ) (w : ℕ) (x y : ℤ) : ℝ :=
  ∑ dy ∈ Finset.Icc (-5 : ℤ) 5, ∑ dx ∈ Finset.Icc (-5 : ℤ) 5,
    gaussWeight 5 dx dy *
      rangeWeight (data (zidx w x y + 3)) (data (zidx w (x + dx) (y + dy) + 3))

/-- The `alphaSum` accumulator of source
`TensorFlowProcessor.bilateralFilter` at (x, y). -/
noncomputable def bilateralAlphaSum (data : ℤ → ℕ) (w : ℕ) (x y : ℤ) : ℝ :=
  ∑ dy ∈ Finset.Icc (-5 : ℤ) 5, ∑ dx ∈ Finset.Icc (-5 : ℤ) 5,
    (data (zidx w (x + dx) (y + dy) + 3) : ℝ) *
      (gaussWeight 5 dx dy *
        rangeWeight (data (zidx w x y + 3)) (data (zidx w (x + dx) (y + dy) + 3)))

/-- One iteration of source `TensorFlowProcessor.bilateralFilter`. -/
noncomputable def bilateralFilterStep (originalData : ℤ → ℕ) (w : ℕ) (d : ℤ → ℕ)
    (p : ℤ × ℤ) : ℤ → ℕ :=
  fun j => if j = zidx w p.1 p.2 + 3 then
    toClampedByte (bilateralAlphaSum originalData w p.1 p.2 /
      bilateralWeightSum originalData w p.1 p.2)
  else d j

/-- Source `TensorFlowProcessor.bilateralFilter`: radius-5 bilateral
smoothing of the alpha channel. -/
noncomputable def bilateralFilter (w h : ℕ) (data : ℤ → ℕ) : ℤ → ℕ :=
  (pixelsIn 5 ((w : ℤ) - 5) 5 ((h : ℤ) - 5)).foldl (bilateralFilterStep data w) data

/-- Source `TensorFlowProcessor.floodFill`, one `while (stack.length > 0)`
iteration per fuel unit: pop a coordinate; skip it when out of bounds,
already visited, or background (alpha ≤ 128); otherwise mark it visited,
append its index to the component, and push its four neighbors.  The fuel
only bounds the iteration count; `floodFill` below supplies enough fuel for
the loop to run to completion (proved in the claim-C6 development). -/
def floodFillAux (data : ℤ → ℕ) (w h : ℕ) :
    ℕ → List (ℤ × ℤ) → (ℤ → Bool) → List ℤ → ((ℤ → Bool) × List ℤ)
  | 0, _, visited, component => (visited, component)
  | _ + 1, [], visited, component => (visited, component)
  | fuel + 1, (x, y) :: rest, visited, component =>
    if x < 0 ∨ (w : ℤ) ≤ x ∨ y < 0 ∨ (h : ℤ) ≤ y ∨ visited (y * w + x) then
      floodFillAux data w h fuel rest visited component
    else if data ((y * w + x) * 4 + 3) ≤ 128 then
      floodFillAux data w h fuel rest visited component
    else
      floodFillAux data w h fuel
        ((x, y + 1) :: (x, y - 1) :: (x + 1, y) :: (x - 1, y) :: rest)
        (fun i => if i = y * w + x then true else visited i)
        (component ++ [y * w + x])

/-- Source `TensorFlowProcessor.floodFill` from a start coordinate. -/
def floodFill (data : ℤ → ℕ) (visited : ℤ → Bool) (startX startY : ℤ) (w h : ℕ) :
    (ℤ → Bool) × List ℤ :=
  floodFillAux data w h (4 * w * h + 1) [(startX, startY)] visited []

/-- One pixel of the scan loop of source
`TensorFlowProcessor.connectedComponentAnalysis`: flood-fill from every
not-yet-visited foreground pixel (alpha > 128) and record the component
when it is non-empty. -/
def ccScanStep (w h : ℕ) (data : ℤ → ℕ) (st : (ℤ → Bool) × List (List ℤ))
    (p : ℤ × ℤ) : (ℤ → Bool) × List (List ℤ) :=
  if st.1 (p.2 * w + p.1) = false ∧ 128 < data ((p.2 * w + p.1) * 4 + 3) then
    let res := floodFill data st.1 p.1 p.2 w h
    if 0 < res.2.length then (res.1, st.2 ++ [res.2]) else (res.1, st.2)
  else st

/-- The component-collection loop of source
`TensorFlowProcessor.connectedComponentAnalysis`: row-major scan. -/
def ccScan (w h : ℕ) (data : ℤ → ℕ) : (ℤ → Bool) × List (List ℤ) :=
  (pixelsIn 0 (w : ℤ) 0 (h : ℤ)).foldl (ccScanStep w h data) (fun _ => false, [])

/-- The pruning threshold `Math.max(50, (width * height) / 1000)`. -/
def minComponentSize (w h : ℕ) : ℚ := max 50 ((w * h : ℚ) / 1000)

/-- Source `TensorFlowProcessor.connectedComponentAnalysis`: collect the
4-connected components of alpha > 128 in row-major scan order, then zero
the alpha of every component smaller than `max(50, width*height/1000)`. -/
def connectedComponentAnalysis (w h : ℕ) (data : ℤ → ℕ) : ℤ → ℕ :=
  (ccScan w h data).2.foldl
    (fun d component =>
      if (component.length : ℚ) < minComponentSize w h then
        component.foldl (fun d' i => fun j => if j = i * 4 + 3 then 0 else d' j) d
      else d)
    data

/-- Source `TensorFlowProcessor.isEdgePixel`: some in-bounds 8-neighbor's
alpha differs from the center alpha by more than 50. -/
def isEdgePixel (x y : ℤ) (data : ℤ → ℕ) (w h : ℕ) : Prop :=
  ∃ n ∈ ([(x - 1, y - 1), (x, y - 1), (x + 1, y - 1), (x - 1, y), (x + 1, y),
      (x - 1, y + 1), (x, y + 1), (x + 1, y + 1)] : List (ℤ × ℤ)),
    (0 ≤ n.1 ∧ n.1 < w ∧ 0 ≤ n.2 ∧ n.2 < h) ∧
    50 < |(data (zidx w x y + 3) : ℤ) - data (zidx w n.1 n.2 + 3)|

/-- Source `TensorFlowProcessor.calculateEdgeStrength`: the maximum absolute
alpha difference to an in-bounds 8-neighbor. -/
def calculateEdgeStrength (x y : ℤ) (data : ℤ → ℕ) (w h : ℕ) : ℕ :=
  ((([(x - 1, y - 1), (x, y - 1), (x + 1, y - 1), (x - 1, y), (x + 1, y),
      (x - 1, y + 1), (x, y + 1), (x + 1, y + 1)] : List (ℤ × ℤ)).filter
    (fun n => decide (0 ≤ n.1 ∧ n.1 < (w : ℤ) ∧ 0 ≤ n.2 ∧ n.2 < (h : ℤ)))).map
    (fun n => (|(data (zidx w x y + 3) : ℤ) - data (zidx w n.1 n.2 + 3)|).toNat)).foldl
    max 0

open Classical in
/-- One iteration of source `TensorFlowProcessor.edgeOptimization`: edge
pixels get the Gaussian-weighted alpha average with the adaptive sigma and
radius derived from the local edge strength. -/
noncomputable def edgeOptimizationStep (originalData : ℤ → ℕ) (w h : ℕ)
    (d : ℤ → ℕ) (p : ℤ × ℤ) : ℤ → ℕ :=
  if isEdgePixel p.1 p.2 originalData w h then
    let edgeStrength := calculateEdgeStrength p.1 p.2 originalData w h
    fun j => if j = zidx w p.1 p.2 + 3 then
      toClampedByte (gaussNewAlpha originalData w p.1 p.2 (tfSigma edgeStrength)
        (tfRadius edgeStrength))
    else d j
  else d

/-- Source `TensorFlowProcessor.edgeOptimization`. -/
noncomputable def edgeOptimization (w h : ℕ) (data : ℤ → ℕ) : ℤ → ℕ :=
  (pixelsIn 2 ((w : ℤ) - 2) 2 ((h : ℤ) - 2)).foldl (edgeOptimizationStep data w h)
    data

/-- Source `TensorFlowProcessor.postProcessSegmentation`: bilateral filter,
then connected-component pruning, then edge optimization — the precise
tier's mask post-processing. -/
noncomputable def postProcessSegmentation (w h : ℕ) (data : ℤ → ℕ) : ℤ → ℕ :=
  edgeOptimization w h (connectedComponentAnalysis w h (bilateralFilter w h data))

end TensorFlowProcessor

/-- An all-foreground 4 × 4 alpha mask (every alpha byte 255, RGB 0). -/
def c2mask : ℤ → ℕ := fun j => if j % 4 = 3 then 255 else 0

/-- Claim C2 counterexample: on the all-foreground 4 × 4 mask the balanced
tier's post-processing keeps alpha 255 everywhere (median and open leave a
constant mask unchanged; the feathering loop's range is empty at 4 × 4)
while the precise tier's post-processing zeroes the whole mask (its single
16-pixel component is below the 50-pixel pruning threshold).  The two
chains therefore do not compute the same function, and neither follows the
spec's four-stage order. -/
theorem c2_postprocessing_counterexample :
    MediaPipeProcessor.postProcessSegmentation 4 4 c2mask 3 = 255 ∧
    TensorFlowProcessor.postProcessSegmentation 4 4 c2mask 3 = 0 ∧
    MediaPipeProcessor.postProcessSegmentation 4 4 c2mask 3 ≠
      TensorFlowProcessor.postProcessSegmentation 4 4 c2mask 3 := by
  have hMP : MediaPipeProcessor.postProcessSegmentation 4 4 c2mask 3 = 255 := by
    decide
  have hcomps : (TensorFlowProcessor.ccScan 4 4 c2mask).2 =
      [[0, 4, 8, 12, 13, 9, 5, 1, 2, 6, 10, 14, 15, 11, 7, 3]] := by decide
  have hTF : TensorFlowProcessor.postProcessSegmentation 4 4 c2mask 3 = 0 := by
    show TensorFlowProcessor.edgeOptimization 4 4
      (TensorFlowProcessor.connectedComponentAnalysis 4 4
        (TensorFlowProcessor.bilateralFilter 4 4 c2mask)) 3 = 0
    have hbf : TensorFlowProcessor.bilateralFilter 4 4 c2mask = c2mask := rfl
    have heo : ∀ d : ℤ → ℕ, TensorFlowProcessor.edgeOptimization 4 4 d = d :=
      fun d => rfl
    rw [heo, hbf]
    unfold TensorFlowProcessor.connectedComponentAnalysis
    rw [hcomps, List.foldl_cons, List.foldl_nil, if_pos ?hsize]
    case hsize =>
      show ((16 : ℕ) : ℚ) < TensorFlowProcessor.minComponentSize 4 4
      unfold TensorFlowProcessor.minComponentSize
      rw [max_eq_left (by norm_num)]
      norm_num
    decide
  exact ⟨hMP, hTF, by rw [hMP, hTF]; norm_num⟩

/-- Claim C2, amended: the balanced and precise tiers do NOT share one mask
post-processing function.  The balanced tier applies median filter, then
morphological open, then edge feathering; the precise tier applies
bilateral filter, then connected-component pruning, then edge
optimization; and there is a mask on which the two chains' outputs
differ. -/
theorem c2_postprocessing_not_equivalent :
    (∀ (w h : ℕ) (data : ℤ → ℕ),
      MediaPipeProcessor.postProcessSegmentation w h data =
        MediaPipeProcessor.edgeFeathering w h
          (MediaPipeProcessor.morphologicalOperations w h
            (MediaPipeProcessor.medianFilter w h data))) ∧
    (∀ (w h : ℕ) (data : ℤ → ℕ),
      TensorFlowProcessor.postProcessSegmentation w h data =
        TensorFlowProcessor.edgeOptimization w h
          (TensorFlowProcessor.connectedComponentAnalysis w h
            (TensorFlowProcessor.bilateralFilter w h data))) ∧
    ∃ (w h : ℕ) (data : ℤ → ℕ) (j : ℤ),
      MediaPipeProcessor.postProcessSegmentation w h data j ≠
        TensorFlowProcessor.postProcessSegmentation w h data j := by
  refine ⟨fun _ _ _ => rfl, fun _ _ _ => rfl, 4, 4, c2mask, 3, ?_⟩
  have hMP : MediaPipeProcessor.postProcessSegmentation 4 4 c2mask 3 = 255 := by
    decide
  have hcomps : (TensorFlowProcessor.ccScan 4 4 c2mask).2 =
      [[0, 4, 8, 12, 13, 9, 5, 1, 2, 6, 10, 14, 15, 11, 7, 3]] := by decide
  have hTF : TensorFlowProcessor.postProcessSegmentation 4 4 c2mask 3 = 0 := by
    show TensorFlowProcessor.edgeOptimization 4 4
      (TensorFlowProcessor.connectedComponentAnalysis 4 4
        (TensorFlowProcessor.bilateralFilter 4 4 c2mask)) 3 = 0
    have hbf : TensorFlowProcessor.bilateralFilter 4 4 c2mask = c2mask := rfl
    have heo : ∀ d : ℤ → ℕ, TensorFlowProcessor.edgeOptimization 4 4 d = d :=
      fun d => rfl
    rw [heo, hbf]
    unfold TensorFlowProcessor.connectedComponentAnalysis
    rw [hcomps, List.foldl_cons, List.foldl_nil, if_pos ?hsize]
    case hsize =>
      show ((16 : ℕ) : ℚ) < TensorFlowProcessor.minComponentSize 4 4
      unfold TensorFlowProcessor.minComponentSize
      rw [max_eq_left (by norm_num)]
      norm_num
    decide
  rw [hMP, hTF]
  norm_num

/-!
Claim C6: correctness of the connected-component pruning.  The development
below relates the imperative flood fill of
`TensorFlowProcessor.connectedComponentAnalysis` to the mathematical
4-connectivity relation on foreground pixels and derives the pruning
semantics: an interior alpha byte is zeroed exactly when its pixel is
foreground and its 4-connected component has fewer than
`max(50, width*height/1000)` pixels.
-/

namespace TensorFlowProcessor

/-- Linear pixel index `y * width + x` used by the scan and the flood
fill. -/
def pIdx (w : ℕ) (p : ℤ × ℤ) : ℤ := p.2 * w + p.1

/-- The coordinate lies inside the raster. -/
def InBounds (w h : ℕ) (p : ℤ × ℤ) : Prop :=
  0 ≤ p.1 ∧ p.1 < (w : ℤ) ∧ 0 ≤ p.2 ∧ p.2 < (h : ℤ)

/-- The pixel is foreground: alpha byte above 128. -/
def Foreground (data : ℤ → ℕ) (w : ℕ) (p : ℤ × ℤ) : Prop :=
  128 < data (pIdx w p * 4 + 3)

/-- An in-bounds foreground pixel. -/
def Good (data : ℤ → ℕ) (w h : ℕ) (p : ℤ × ℤ) : Prop :=
  InBounds w h p ∧ Foreground data w p

/-- 4-adjacency of coordinates. -/
def Adj (p q : ℤ × ℤ) : Prop :=
  (p.1 - q.1).natAbs + (p.2 - q.2).natAbs = 1

/-- One step between 4-adjacent in-bounds foreground pixels. -/
def ConnStep (data : ℤ → ℕ) (w h : ℕ) (p q : ℤ × ℤ) : Prop :=
  Good data w h p ∧ Good data w h q ∧ Adj p q

/-- 4-connectivity within the foreground: the claim's "4-connected
components of alpha > 128" are the equivalence classes of `Conn`. -/
def Conn (data : ℤ → ℕ) (w h : ℕ) (p q : ℤ × ℤ) : Prop :=
  Good data w h p ∧ Relation.ReflTransGen (ConnStep data w h) p q

/-- One step onto a good pixel not yet in the visited set. -/
def AvoidStep (data : ℤ → ℕ) (w h : ℕ) (v : ℤ → Bool) (p q : ℤ × ℤ) : Prop :=
  Good data w h q ∧ v (pIdx w q) = false ∧ Adj p q

/-- Reachability from an unvisited good pixel through unvisited good
pixels: what the running flood fill can still discover from a stack
entry. -/
def ReachU (data : ℤ → ℕ) (w h : ℕ) (v : ℤ → Bool) (p q : ℤ × ℤ) : Prop :=
  Good data w h p ∧ v (pIdx w p) = false ∧
    Relation.ReflTransGen (AvoidStep data w h v) p q

theorem pIdx_inj {w : ℕ} {p q : ℤ × ℤ} (h1 : 0 ≤ p.1) (h2 : p.1 < (w : ℤ))
    (h3 : 0 ≤ q.1) (h4 : q.1 < (w : ℤ)) (he : pIdx w p = pIdx w q) : p = q := by
  have hz : zidx w p.1 p.2 = zidx w q.1 q.2 := by
    unfold zidx
    unfold pIdx at he
    omega
  obtain ⟨hx, hy⟩ := zidx_inj h1 h2 h3 h4 hz
  exact Prod.ext hx hy

theorem adj_symm {p q : ℤ × ℤ} (h : Adj p q) : Adj q p := by
  unfold Adj at h ⊢
  omega

theorem adj_iff_mem {p q : ℤ × ℤ} :
    Adj p q ↔ q ∈ ([(p.1, p.2 + 1), (p.1, p.2 - 1), (p.1 + 1, p.2), (p.1 - 1, p.2)] :
      List (ℤ × ℤ)) := by
  obtain ⟨qx, qy⟩ := q
  unfold Adj
  simp only [List.mem_cons, List.mem_singleton, List.not_mem_nil, or_false,
    Prod.mk.injEq]
  omega

theorem conn_good_right {data : ℤ → ℕ} {w h : ℕ} {p q : ℤ × ℤ}
    (hc : Conn data w h p q) : Good data w h q := by
  obtain ⟨hg, hr⟩ := hc
  rcases Relation.ReflTransGen.cases_tail hr with heq | ⟨c, -, hstep⟩
  · rw [← heq] at hg
    exact hg
  · exact hstep.2.1

theorem conn_refl {data : ℤ → ℕ} {w h : ℕ} {p : ℤ × ℤ} (hg : Good data w h p) :
    Conn data w h p p := ⟨hg, Relation.ReflTransGen.refl⟩

theorem conn_trans {data : ℤ → ℕ} {w h : ℕ} {p q r : ℤ × ℤ}
    (h1 : Conn data w h p q) (h2 : Conn data w h q r) : Conn data w h p r :=
  ⟨h1.1, h1.2.trans h2.2⟩

theorem conn_symm {data : ℤ → ℕ} {w h : ℕ} {p q : ℤ × ℤ}
    (h1 : Conn data w h p q) : Conn data w h q p := by
  refine ⟨conn_good_right h1, ?_⟩
  have hsym : Symmetric (ConnStep data w h) :=
    fun a b hab => ⟨hab.2.1, hab.1, adj_symm hab.2.2⟩
  exact (Relation.ReflTransGen.symmetric hsym) h1.2

theorem reachU_good_unvisited {data : ℤ → ℕ} {w h : ℕ} {v : ℤ → Bool}
    {p q : ℤ × ℤ} (hr : ReachU data w h v p q) :
    Good data w h q ∧ v (pIdx w q) = false := by
  obtain ⟨hg, hv, hrt⟩ := hr
  rcases Relation.ReflTransGen.cases_tail hrt with heq | ⟨c, -, hstep⟩
  · rw [← heq] at hg hv
    exact ⟨hg, hv⟩
  · exact ⟨hstep.1, hstep.2.1⟩

theorem reachU_mono {data : ℤ → ℕ} {w h : ℕ} {v v2 : ℤ → Bool}
    (hmono : ∀ i, v2 i = false → v i = false) {p q : ℤ × ℤ}
    (hr : ReachU data w h v2 p q) : ReachU data w h v p q := by
  obtain ⟨hg, hv, hrt⟩ := hr
  exact ⟨hg, hmono _ hv,
    Relation.ReflTransGen.mono (fun a b hab => ⟨hab.1, hmono _ hab.2.1, hab.2.2⟩) hrt⟩

theorem reachU_conn {data : ℤ → ℕ} {w h : ℕ} {v : ℤ → Bool} {p q : ℤ × ℤ}
    (hr : ReachU data w h v p q) : Conn data w h p q := by
  obtain ⟨hg, hv, hrt⟩ := hr
  refine ⟨hg, ?_⟩
  have key : ∀ a, Relation.ReflTransGen (AvoidStep data w h v) a q →
      Good data w h a → Relation.ReflTransGen (ConnStep data w h) a q := by
    intro a hrta
    induction hrta using Relation.ReflTransGen.head_induction_on with
    | refl => intro _; exact Relation.ReflTransGen.refl
    | head hab hbq ih =>
      intro hga
      exact Relation.ReflTransGen.head ⟨hga, hab.1, hab.2.2⟩ (ih hab.1)
  exact key p hrt hg

theorem conn_to_reachU {data : ℤ → ℕ} {w h : ℕ} {v : ℤ → Bool} {p q : ℤ × ℤ}
    (hg : Good data w h p)
    (hub : ∀ r, Conn data w h p r → v (pIdx w r) = false)
    (hc : Conn data w h p q) : ReachU data w h v p q := by
  refine ⟨hg, hub p (conn_refl hg), ?_⟩
  obtain ⟨-, hrt⟩ := hc
  have key : ∀ a, Relation.ReflTransGen (ConnStep data w h) a q →
      Conn data w h p a → Relation.ReflTransGen (AvoidStep data w h v) a q := by
    intro a hrta
    induction hrta using Relation.ReflTransGen.head_induction_on with
    | refl => intro _; exact Relation.ReflTransGen.refl
    | head hab hbq ih =>
      intro hpa
      have hpb := conn_trans hpa ⟨hab.1, Relation.ReflTransGen.single hab⟩
      exact Relation.ReflTransGen.head ⟨hab.2.1, hub _ hpb, hab.2.2⟩ (ih hpb)
  exact key p hrt (conn_refl hg)

theorem rtg_avoid_mark {data : ℤ → ℕ} {w h : ℕ} {v : ℤ → Bool} {cur : ℤ × ℤ}
    (hcg : Good data w h cur) {a q : ℤ × ℤ}
    (hrt : Relation.ReflTransGen (AvoidStep data w h v) a q) :
    Relation.ReflTransGen
      (AvoidStep data w h (fun i => if i = pIdx w cur then true else v i)) a q ∨
    Relation.ReflTransGen
      (AvoidStep data w h (fun i => if i = pIdx w cur then true else v i)) cur q := by
  induction hrt using Relation.ReflTransGen.head_induction_on with
  | refl => left; exact Relation.ReflTransGen.refl
  | head hab hbq ih =>
    rcases ih with hcase | hcase
    · rename_i a' b'
      by_cases hb : b' = cur
      · right
        rw [hb] at hcase
        exact hcase
      · left
        refine Relation.ReflTransGen.head ⟨hab.1, ?_, hab.2.2⟩ hcase
        have hne : pIdx w b' ≠ pIdx w cur := fun he =>
          hb (pIdx_inj hab.1.1.1 hab.1.1.2.1 hcg.1.1 hcg.1.2.1 he)
        simp only [if_neg hne]
        exact hab.2.1
    · right
      exact hcase

theorem new_skip {data : ℤ → ℕ} {w h : ℕ} {v : ℤ → Bool} {cur : ℤ × ℤ}
    {rest : List (ℤ × ℤ)} {q : ℤ × ℤ}
    (hskip : ¬ Good data w h cur ∨ v (pIdx w cur) = true) :
    (∃ s ∈ cur :: rest, ReachU data w h v s q) ↔
      ∃ s ∈ rest, ReachU data w h v s q := by
  constructor
  · rintro ⟨s, hs, hr⟩
    rcases List.mem_cons.1 hs with rfl | hmem
    · rcases hskip with hbad | hbad
      · exact absurd hr.1 hbad
      · rw [hr.2.1] at hbad
        cases hbad
    · exact ⟨s, hmem, hr⟩
  · rintro ⟨s, hs, hr⟩
    exact ⟨s, List.mem_cons_of_mem _ hs, hr⟩

theorem new_visit {data : ℤ → ℕ} {w h : ℕ} {v : ℤ → Bool} {cur : ℤ × ℤ}
    {rest : List (ℤ × ℤ)} {q : ℤ × ℤ}
    (hg : Good data w h cur) (hv : v (pIdx w cur) = false) :
    (∃ s ∈ cur :: rest, ReachU data w h v s q) ↔
      (q = cur ∨
        ∃ s ∈ ((cur.1, cur.2 + 1) :: (cur.1, cur.2 - 1) :: (cur.1 + 1, cur.2) ::
            (cur.1 - 1, cur.2) :: rest),
          ReachU data w h (fun i => if i = pIdx w cur then true else v i) s q) := by
  set v2 : ℤ → Bool := fun i => if i = pIdx w cur then true else v i with hv2def
  have hmono : ∀ i, v2 i = false → v i = false := by
    intro i hi
    by_cases hic : i = pIdx w cur
    · simp only [hv2def, if_pos hic] at hi
      cases hi
    · simp only [hv2def, if_neg hic] at hi
      exact hi
  have hfromcur : Relation.ReflTransGen (AvoidStep data w h v2) cur q →
      q = cur ∨
        ∃ s ∈ ((cur.1, cur.2 + 1) :: (cur.1, cur.2 - 1) :: (cur.1 + 1, cur.2) ::
            (cur.1 - 1, cur.2) :: rest), ReachU data w h v2 s q := by
    intro hrt
    rcases Relation.ReflTransGen.cases_head hrt with heq | ⟨b, hstep, hrtb⟩
    · left
      exact heq.symm
    · right
      have hbmem : b ∈ ([(cur.1, cur.2 + 1), (cur.1, cur.2 - 1), (cur.1 + 1, cur.2),
          (cur.1 - 1, cur.2)] : List (ℤ × ℤ)) := adj_iff_mem.1 hstep.2.2
      refine ⟨b, ?_, hstep.1, hstep.2.1, hrtb⟩
      simp only [List.mem_cons] at hbmem ⊢
      tauto
  constructor
  · rintro ⟨s, hs, hr⟩
    by_cases hq : q = cur
    · left
      exact hq
    rcases List.mem_cons.1 hs with rfl | hmem
    · rcases rtg_avoid_mark hg hr.2.2 with hcase | hcase
      · exact hfromcur hcase
      · exact hfromcur hcase
    · rcases rtg_avoid_mark hg hr.2.2 with hcase | hcase
      · by_cases hsc : s = cur
        · rw [hsc] at hcase
          exact hfromcur hcase
        · right
          refine ⟨s, ?_, hr.1, ?_, hcase⟩
          · simp only [List.mem_cons] at hmem ⊢
            tauto
          · have hne : pIdx w s ≠ pIdx w cur := fun he =>
              hsc (pIdx_inj hr.1.1.1 hr.1.1.2.1 hg.1.1 hg.1.2.1 he)
            rw [hv2def]
            simp only [if_neg hne]
            exact hr.2.1
      · exact hfromcur hcase
  · rintro (rfl | ⟨s, hs, hr⟩)
    · exact ⟨q, List.mem_cons_self _ _, hg, hv, Relation.ReflTransGen.refl⟩
    · have hrv : ReachU data w h v s q := reachU_mono hmono hr
      simp only [List.mem_cons] at hs
      rcases hs with h1 | h1 | h1 | h1 | h1
      all_goals first
        | (exact ⟨s, List.mem_cons_of_mem _ h1, hrv⟩)
        | (refine ⟨cur, List.mem_cons_self _ _, hg, hv,
            Relation.ReflTransGen.head ⟨hrv.1, hrv.2.1, ?_⟩ hrv.2.2⟩
           rw [adj_iff_mem]
           simp only [List.mem_cons, List.not_mem_nil, or_false]
           tauto)

/-- The finite set of in-bounds coordinates. -/
def boundsF (w h : ℕ) : Finset (ℤ × ℤ) :=
  Finset.Icc (0, 0) ((w : ℤ) - 1, (h : ℤ) - 1)

theorem mem_boundsF {w h : ℕ} {p : ℤ × ℤ} : p ∈ boundsF w h ↔ InBounds w h p := by
  unfold boundsF InBounds
  rw [Finset.mem_Icc]
  rw [Prod.le_def, Prod.le_def]
  constructor
  · rintro ⟨⟨a, b⟩, c, d⟩
    exact ⟨a, by omega, b, by omega⟩
  · rintro ⟨a, b, c, d⟩
    exact ⟨⟨a, c⟩, by omega, by omega⟩

open Classical in
/-- The unvisited good pixels: the flood fill's remaining work. -/
noncomputable def UG (data : ℤ → ℕ) (w h : ℕ) (v : ℤ → Bool) : Finset (ℤ × ℤ) :=
  (boundsF w h).filter (fun p => Good data w h p ∧ v (pIdx w p) = false)

open Classical in
theorem mem_UG {data : ℤ → ℕ} {w h : ℕ} {v : ℤ → Bool} {p : ℤ × ℤ} :
    p ∈ UG data w h v ↔ Good data w h p ∧ v (pIdx w p) = false := by
  unfold UG
  rw [Finset.mem_filter, mem_boundsF]
  constructor
  · rintro ⟨-, hb⟩
    exact hb
  · rintro ⟨hg, hv⟩
    exact ⟨hg.1, hg, hv⟩

open Classical in
theorem UG_mark {data : ℤ → ℕ} {w h : ℕ} {v : ℤ → Bool} {cur : ℤ × ℤ}
    (hg : Good data w h cur) :
    UG data w h (fun i => if i = pIdx w cur then true else v i) =
      (UG data w h v).erase cur := by
  ext p
  rw [mem_UG, Finset.mem_erase, mem_UG]
  constructor
  · rintro ⟨hgp, hvp⟩
    by_cases hpc : p = cur
    · exfalso
      rw [hpc] at hvp
      simp at hvp
    · have hne : pIdx w p ≠ pIdx w cur := fun he =>
        hpc (pIdx_inj hgp.1.1 hgp.1.2.1 hg.1.1 hg.1.2.1 he)
      simp only [if_neg hne] at hvp
      exact ⟨hpc, hgp, hvp⟩
  · rintro ⟨hpc, hgp, hvp⟩
    have hne : pIdx w p ≠ pIdx w cur := fun he =>
      hpc (pIdx_inj hgp.1.1 hgp.1.2.1 hg.1.1 hg.1.2.1 he)
    refine ⟨hgp, ?_⟩
    simp only [if_neg hne]
    exact hvp

/-- The full specification of `floodFillAux`, proved by induction on the
fuel: with enough fuel, the final visited set is the initial one plus the
pixels reachable from the stack through unvisited good pixels, and the
final component list extends the initial one by exactly the indices of
those newly reached pixels, without duplicates. -/
theorem floodFillAux_spec (data : ℤ → ℕ) (w h : ℕ) :
    ∀ (fuel : ℕ) (stack : List (ℤ × ℤ)) (v : ℤ → Bool) (comp : List ℤ),
      4 * (UG data w h v).card + stack.length ≤ fuel →
      (∀ i, (floodFillAux data w h fuel stack v comp).1 i = true ↔
        (v i = true ∨ ∃ q, (∃ s ∈ stack, ReachU data w h v s q) ∧ pIdx w q = i)) ∧
      (∃ l, (floodFillAux data w h fuel stack v comp).2 = comp ++ l ∧ l.Nodup ∧
        (∀ i, i ∈ l ↔ ∃ q, (∃ s ∈ stack, ReachU data w h v s q) ∧ pIdx w q = i)) := by
  intro fuel
  induction fuel with
  | zero =>
    intro stack v comp hfuel
    have hstack : stack = [] := by
      rw [← List.length_eq_zero]
      omega
    subst hstack
    constructor
    · intro i
      simp [floodFillAux]
    · refine ⟨[], by simp [floodFillAux], List.nodup_nil, ?_⟩
      intro i
      simp
  | succ n ih =>
    intro stack v comp hfuel
    match stack with
    | [] =>
      constructor
      · intro i
        simp [floodFillAux]
      · refine ⟨[], by simp [floodFillAux], List.nodup_nil, ?_⟩
        intro i
        simp
    | (x, y) :: rest =>
      rw [List.length_cons] at hfuel
      by_cases hskip : x < 0 ∨ (w : ℤ) ≤ x ∨ y < 0 ∨ (h : ℤ) ≤ y ∨ v (y * w + x) = true
      · have hred : floodFillAux data w h (n + 1) ((x, y) :: rest) v comp =
            floodFillAux data w h n rest v comp := by
          show (if x < 0 ∨ (w : ℤ) ≤ x ∨ y < 0 ∨ (h : ℤ) ≤ y ∨ v (y * w + x) = true
            then floodFillAux data w h n rest v comp
            else if data ((y * w + x) * 4 + 3) ≤ 128 then
              floodFillAux data w h n rest v comp
            else floodFillAux data w h n
              ((x, y + 1) :: (x, y - 1) :: (x + 1, y) :: (x - 1, y) :: rest)
              (fun i => if i = y * w + x then true else v i)
              (comp ++ [y * w + x])) = floodFillAux data w h n rest v comp
          rw [if_pos hskip]
        have hnotgood : ¬ Good data w h (x, y) ∨ v (pIdx w (x, y)) = true := by
          rcases hskip with hb | hb | hb | hb | hb
          · left; rintro ⟨⟨h1, -⟩, -⟩; omega
          · left; rintro ⟨⟨-, h1, -⟩, -⟩; omega
          · left; rintro ⟨⟨-, -, h1, -⟩, -⟩; omega
          · left; rintro ⟨⟨-, -, -, h1⟩, -⟩; omega
          · right; exact hb
        obtain ⟨hvis, hcomp⟩ := ih rest v comp (by omega)
        rw [hred]
        constructor
        · intro i
          rw [hvis i]
          constructor
          · rintro (hv1 | ⟨q, hnew, hq⟩)
            · left; exact hv1
            · right; exact ⟨q, (new_skip hnotgood).2 hnew, hq⟩
          · rintro (hv1 | ⟨q, hnew, hq⟩)
            · left; exact hv1
            · right; exact ⟨q, (new_skip hnotgood).1 hnew, hq⟩
        · obtain ⟨l, hl1, hl2, hl3⟩ := hcomp
          refine ⟨l, hl1, hl2, ?_⟩
          intro i
          rw [hl3 i]
          constructor
          · rintro ⟨q, hnew, hq⟩
            exact ⟨q, (new_skip hnotgood).2 hnew, hq⟩
          · rintro ⟨q, hnew, hq⟩
            exact ⟨q, (new_skip hnotgood).1 hnew, hq⟩
      · by_cases hbg : data ((y * w + x) * 4 + 3) ≤ 128
        · have hred : floodFillAux data w h (n + 1) ((x, y) :: rest) v comp =
              floodFillAux data w h n rest v comp := by
            show (if x < 0 ∨ (w : ℤ) ≤ x ∨ y < 0 ∨ (h : ℤ) ≤ y ∨ v (y * w + x) = true
              then floodFillAux data w h n rest v comp
              else if data ((y * w + x) * 4 + 3) ≤ 128 then
                floodFillAux data w h n rest v comp
              else floodFillAux data w h n
                ((x, y + 1) :: (x, y - 1) :: (x + 1, y) :: (x - 1, y) :: rest)
                (fun i => if i = y * w + x then true else v i)
                (comp ++ [y * w + x])) = floodFillAux data w h n rest v comp
            rw [if_neg hskip, if_pos hbg]
          have hnotgood : ¬ Good data w h (x, y) ∨ v (pIdx w (x, y)) = true := by
            left
            rintro ⟨-, hfg⟩
            unfold Foreground pIdx at hfg
            simp only at hfg
            omega
          obtain ⟨hvis, hcomp⟩ := ih rest v comp (by omega)
          rw [hred]
          constructor
          · intro i
            rw [hvis i]
            constructor
            · rintro (hv1 | ⟨q, hnew, hq⟩)
              · left; exact hv1
              · right; exact ⟨q, (new_skip hnotgood).2 hnew, hq⟩
            · rintro (hv1 | ⟨q, hnew, hq⟩)
              · left; exact hv1
              · right; exact ⟨q, (new_skip hnotgood).1 hnew, hq⟩
          · obtain ⟨l, hl1, hl2, hl3⟩ := hcomp
            refine ⟨l, hl1, hl2, ?_⟩
            intro i
            rw [hl3 i]
            constructor
            · rintro ⟨q, hnew, hq⟩
              exact ⟨q, (new_skip hnotgood).2 hnew, hq⟩
            · rintro ⟨q, hnew, hq⟩
              exact ⟨q, (new_skip hnotgood).1 hnew, hq⟩
        · -- visit case
          have hg : Good data w h (x, y) := by
            refine ⟨⟨?_, ?_, ?_, ?_⟩, ?_⟩
            · omega
            · omega
            · omega
            · omega
            · unfold Foreground pIdx
              simp only
              omega
          have hv : v (pIdx w (x, y)) = false := by
            unfold pIdx
            simp only
            rcases Bool.eq_false_or_eq_true (v (y * w + x)) with hb | hb
            · exact absurd (Or.inr (Or.inr (Or.inr (Or.inr hb)))) hskip
            · exact hb
          have hred : floodFillAux data w h (n + 1) ((x, y) :: rest) v comp =
              floodFillAux data w h n
                ((x, y + 1) :: (x, y - 1) :: (x + 1, y) :: (x - 1, y) :: rest)
                (fun i => if i = y * w + x then true else v i)
                (comp ++ [y * w + x]) := by
            show (if x < 0 ∨ (w : ℤ) ≤ x ∨ y < 0 ∨ (h : ℤ) ≤ y ∨ v (y * w + x) = true
              then floodFillAux data w h n rest v comp
              else if data ((y * w + x) * 4 + 3) ≤ 128 then
                floodFillAux data w h n rest v comp
              else floodFillAux data w h n
                ((x, y + 1) :: (x, y - 1) :: (x + 1, y) :: (x - 1, y) :: rest)
                (fun i => if i = y * w + x then true else v i)
                (comp ++ [y * w + x])) = _
            rw [if_neg hskip, if_neg hbg]
          have hidx : pIdx w (x, y) = y * w + x := rfl
          have hcur_mem : (x, y) ∈ UG data w h v := mem_UG.2 ⟨hg, hv⟩
          have hcard : 0 < (UG data w h v).card := Finset.card_pos.2 ⟨_, hcur_mem⟩
          have hUG2 : UG data w h (fun i => if i = y * w + x then true else v i) =
              (UG data w h v).erase (x, y) := by
            rw [← hidx]
            exact UG_mark hg
          have hfuel2 : 4 * (UG data w h
              (fun i => if i = y * w + x then true else v i)).card +
              ((x, y + 1) :: (x, y - 1) :: (x + 1, y) :: (x - 1, y) :: rest).length ≤ n := by
            rw [hUG2, Finset.card_erase_of_mem hcur_mem]
            simp only [List.length_cons]
            omega
          obtain ⟨hvis, hcomp⟩ := ih _ _ _ hfuel2
          rw [hred]
          have hdecomp := fun q => @new_visit data w h v (x, y) rest q hg hv
          constructor
          · intro i
            rw [hvis i]
            constructor
            · rintro (hv2 | ⟨q, hnew, hq⟩)
              · by_cases hic : i = y * w + x
                · right
                  refine ⟨(x, y), ?_, ?_⟩
                  · exact ⟨(x, y), List.mem_cons_self _ _, hg, hv,
                      Relation.ReflTransGen.refl⟩
                  · rw [hidx, hic]
                · simp only [if_neg hic] at hv2
                  left
                  exact hv2
              · right
                refine ⟨q, ?_, hq⟩
                rw [hdecomp q]
                right
                exact hnew
            · rintro (hv2 | ⟨q, hnew, hq⟩)
              · left
                by_cases hic : i = y * w + x
                · simp only [if_pos hic]
                · simp only [if_neg hic]
                  exact hv2
              · rw [hdecomp q] at hnew
                rcases hnew with rfl | hnew2
                · left
                  rw [← hq, hidx]
                  simp
                · right
                  exact ⟨q, hnew2, hq⟩
          · obtain ⟨l, hl1, hl2, hl3⟩ := hcomp
            refine ⟨(y * w + x) :: l, ?_, ?_, ?_⟩
            · rw [hl1]
              simp
            · refine List.nodup_cons.2 ⟨?_, hl2⟩
              intro hmem
              obtain ⟨q, ⟨s, hs, hrs⟩, hq⟩ := (hl3 _).1 hmem
              have hqprops := (reachU_good_unvisited hrs).2
              rw [hq] at hqprops
              simp at hqprops
            · intro i
              constructor
              · intro hmem
                rcases List.mem_cons.1 hmem with rfl | hmem2
                · refine ⟨(x, y), ?_, hidx⟩
                  rw [hdecomp (x, y)]
                  left
                  rfl
                · obtain ⟨q, hnew, hq⟩ := (hl3 i).1 hmem2
                  refine ⟨q, ?_, hq⟩
                  rw [hdecomp q]
                  right
                  exact hnew
              · rintro ⟨q, hnew, hq⟩
                rw [hdecomp q] at hnew
                rcases hnew with rfl | hnew2
                · rw [← hq, hidx]
                  exact List.mem_cons_self _ _
                · exact List.mem_cons_of_mem _ ((hl3 i).2 ⟨q, hnew2, hq⟩)

theorem boundsF_card (w h : ℕ) : (boundsF w h).card = w * h := by
  unfold boundsF
  rw [Finset.card_Icc_prod]
  rw [Int.card_Icc, Int.card_Icc]
  simp only
  have : ((w : ℤ) - 1 + 1 - 0).toNat = w := by omega
  have h2 : ((h : ℤ) - 1 + 1 - 0).toNat = h := by omega
  rw [this, h2]

open Classical in
theorem UG_card_le (data : ℤ → ℕ) (w h : ℕ) (v : ℤ → Bool) :
    (UG data w h v).card ≤ w * h := by
  calc (UG data w h v).card ≤ (boundsF w h).card := Finset.card_filter_le _ _
    _ = w * h := boundsF_card w h

/-- The invariant the scan maintains: the visited set is exactly the union
of the recorded components; visited indices belong to good pixels; the
visited set is closed under 4-connectivity; and every recorded component is
precisely the 4-connected component of some good pixel, without duplicate
indices. -/
def ScanInv (data : ℤ → ℕ) (w h : ℕ) (st : (ℤ → Bool) × List (List ℤ)) : Prop :=
  (∀ i, st.1 i = true → ∃ p, Good data w h p ∧ pIdx w p = i) ∧
  (∀ p q, Good data w h p → st.1 (pIdx w p) = true → Conn data w h p q →
    st.1 (pIdx w q) = true) ∧
  (∀ c ∈ st.2, c.Nodup ∧ ∃ s, Good data w h s ∧
    ∀ i, (i ∈ c ↔ ∃ q, Conn data w h s q ∧ pIdx w q = i)) ∧
  (∀ i, st.1 i = true ↔ ∃ c ∈ st.2, i ∈ c)

theorem ccScanStep_spec (data : ℤ → ℕ) (w h : ℕ) (st : (ℤ → Bool) × List (List ℤ))
    (p : ℤ × ℤ) (hinv : ScanInv data w h st) (hinB : InBounds w h p) :
    ScanInv data w h (ccScanStep w h data st p) ∧
    (∀ i, st.1 i = true → (ccScanStep w h data st p).1 i = true) ∧
    (Good data w h p → (ccScanStep w h data st p).1 (pIdx w p) = true) := by
  obtain ⟨hV1, hV2, hC1, hC2⟩ := hinv
  unfold ccScanStep
  by_cases hc : st.1 (p.2 * w + p.1) = false ∧ 128 < data ((p.2 * w + p.1) * 4 + 3)
  · have hgood : Good data w h p := ⟨hinB, hc.2⟩
    have hv : st.1 (pIdx w p) = false := hc.1
    rw [if_pos hc]
    have hfuel : 4 * (UG data w h st.1).card + ([((p.1 : ℤ), (p.2 : ℤ))]).length ≤
        4 * w * h + 1 := by
      have hle := UG_card_le data w h st.1
      have h4 : 4 * w * h = 4 * (w * h) := by ring
      simp only [List.length_singleton]
      omega
    obtain ⟨hvis, l, hl1, hl2, hl3⟩ :=
      floodFillAux_spec data w h (4 * w * h + 1) [(p.1, p.2)] st.1 [] hfuel
    rw [List.nil_append] at hl1
    have hub : ∀ r, Conn data w h p r → st.1 (pIdx w r) = false := by
      intro r hcr
      rcases Bool.eq_false_or_eq_true (st.1 (pIdx w r)) with hb | hb
      · exfalso
        have hrg : Good data w h r := conn_good_right hcr
        have := hV2 r p hrg hb (conn_symm hcr)
        rw [hv] at this
        cases this
      · exact hb
    have hNEWiff : ∀ q, (∃ s ∈ [((p.1 : ℤ), (p.2 : ℤ))], ReachU data w h st.1 s q) ↔
        Conn data w h p q := by
      intro q
      constructor
      · rintro ⟨s, hs, hr⟩
        rw [List.mem_singleton] at hs
        subst hs
        exact reachU_conn hr
      · intro hcq
        exact ⟨(p.1, p.2), List.mem_singleton_self _, conn_to_reachU hgood hub hcq⟩
    have hmem_p : pIdx w p ∈ l :=
      (hl3 _).2 ⟨p, (hNEWiff p).2 (conn_refl hgood), rfl⟩
    have hlen : 0 < (floodFill data st.1 p.1 p.2 w h).2.length := by
      unfold floodFill
      rw [hl1]
      exact List.length_pos.2 (fun hnil => by rw [hnil] at hmem_p; cases hmem_p)
    show ScanInv data w h (if 0 < (floodFill data st.1 p.1 p.2 w h).2.length
      then ((floodFill data st.1 p.1 p.2 w h).1,
        st.2 ++ [(floodFill data st.1 p.1 p.2 w h).2]) else _) ∧ _
    rw [if_pos hlen]
    have hvis' : ∀ i, (floodFill data st.1 p.1 p.2 w h).1 i = true ↔
        (st.1 i = true ∨ ∃ q, Conn data w h p q ∧ pIdx w q = i) := by
      intro i
      unfold floodFill
      rw [hvis i]
      constructor
      · rintro (h1 | ⟨q, hnew, hq⟩)
        · left; exact h1
        · right; exact ⟨q, (hNEWiff q).1 hnew, hq⟩
      · rintro (h1 | ⟨q, hconn, hq⟩)
        · left; exact h1
        · right; exact ⟨q, (hNEWiff q).2 hconn, hq⟩
    have hcomp2 : (floodFill data st.1 p.1 p.2 w h).2 = l := hl1
    refine ⟨⟨?_, ?_, ?_, ?_⟩, ?_, ?_⟩
    · intro i hi
      rcases (hvis' i).1 hi with h1 | ⟨q, hconn, hq⟩
      · exact hV1 i h1
      · exact ⟨q, conn_good_right hconn, hq⟩
    · intro a b hga hva hcab
      rcases (hvis' _).1 hva with h1 | ⟨q, hconn, hq⟩
      · exact (hvis' _).2 (Or.inl (hV2 a b hga h1 hcab))
      · have hqg : Good data w h q := conn_good_right hconn
        have hqa : q = a := pIdx_inj hqg.1.1 hqg.1.2.1 hga.1.1 hga.1.2.1 hq
        subst hqa
        exact (hvis' _).2 (Or.inr ⟨b, conn_trans hconn hcab, rfl⟩)
    · intro c hcmem
      rcases List.mem_append.1 hcmem with hold | hnew
      · exact hC1 c hold
      · rw [List.mem_singleton] at hnew
        subst hnew
        rw [hcomp2]
        refine ⟨hl2, p, hgood, ?_⟩
        intro i
        rw [hl3 i]
        constructor
        · rintro ⟨q, hnew, hq⟩
          exact ⟨q, (hNEWiff q).1 hnew, hq⟩
        · rintro ⟨q, hconn, hq⟩
          exact ⟨q, (hNEWiff q).2 hconn, hq⟩
    · intro i
      rw [hvis' i]
      constructor
      · rintro (h1 | ⟨q, hconn, hq⟩)
        · obtain ⟨c, hcm, hic⟩ := (hC2 i).1 h1
          exact ⟨c, List.mem_append_left _ hcm, hic⟩
        · refine ⟨(floodFill data st.1 p.1 p.2 w h).2,
            List.mem_append_right _ (List.mem_singleton_self _), ?_⟩
          rw [hcomp2, hl3 i]
          exact ⟨q, (hNEWiff q).2 hconn, hq⟩
      · rintro ⟨c, hcm, hic⟩
        rcases List.mem_append.1 hcm with hold | hnew
        · exact Or.inl ((hC2 i).2 ⟨c, hold, hic⟩)
        · rw [List.mem_singleton] at hnew
          subst hnew
          rw [hcomp2, hl3 i] at hic
          obtain ⟨q, hnewq, hq⟩ := hic
          exact Or.inr ⟨q, (hNEWiff q).1 hnewq, hq⟩
    · intro i hi
      exact (hvis' i).2 (Or.inl hi)
    · intro _
      exact (hvis' _).2 (Or.inr ⟨p, conn_refl hgood, rfl⟩)
  · rw [if_neg hc]
    refine ⟨⟨hV1, hV2, hC1, hC2⟩, fun i hi => hi, ?_⟩
    intro hgood
    rcases Bool.eq_false_or_eq_true (st.1 (pIdx w p)) with hb | hb
    · exact hb
    · exfalso
      exact hc ⟨hb, hgood.2⟩

theorem ccScan_fold_inv (data : ℤ → ℕ) (w h : ℕ) :
    ∀ (ps : List (ℤ × ℤ)) (st : (ℤ → Bool) × List (List ℤ)),
      (∀ p ∈ ps, InBounds w h p) → ScanInv data w h st →
      ScanInv data w h (ps.foldl (ccScanStep w h data) st) ∧
      (∀ i, st.1 i = true → (ps.foldl (ccScanStep w h data) st).1 i = true) ∧
      (∀ p ∈ ps, Good data w h p →
        (ps.foldl (ccScanStep w h data) st).1 (pIdx w p) = true) := by
  intro ps
  induction ps with
  | nil =>
    intro st _ hinv
    refine ⟨hinv, fun i hi => hi, ?_⟩
    intro p hp
    cases hp
  | cons a l ih =>
    intro st hbounds hinv
    obtain ⟨hinv', hmono', hown'⟩ :=
      ccScanStep_spec data w h st a hinv (hbounds a (List.mem_cons_self _ _))
    obtain ⟨hinv'', hmono'', hown''⟩ :=
      ih (ccScanStep w h data st a)
        (fun p hp => hbounds p (List.mem_cons_of_mem _ hp)) hinv'
    rw [List.foldl_cons]
    refine ⟨hinv'', ?_, ?_⟩
    · intro i hi
      exact hmono'' i (hmono' i hi)
    · intro p hp hgood
      rcases List.mem_cons.1 hp with rfl | hpl
      · exact hmono'' _ (hown' hgood)
      · exact hown'' p hpl hgood

theorem ccScan_spec (data : ℤ → ℕ) (w h : ℕ) :
    ScanInv data w h (ccScan w h data) ∧
    ∀ p, Good data w h p → (ccScan w h data).1 (pIdx w p) = true := by
  have base : ScanInv data w h (fun _ => false, []) := by
    refine ⟨?_, ?_, ?_, ?_⟩
    · intro i hi
      cases hi
    · intro p q _ hv _
      cases hv
    · intro c hc
      cases hc
    · intro i
      simp
  obtain ⟨hinv, -, hown⟩ := ccScan_fold_inv data w h (pixelsIn 0 (w : ℤ) 0 (h : ℤ))
    (fun _ => false, [])
    (fun p hp => by
      rw [mem_pixelsIn] at hp
      exact ⟨hp.1, hp.2.1, hp.2.2.1, hp.2.2.2⟩)
    base
  refine ⟨hinv, ?_⟩
  intro p hg
  exact hown p (mem_pixelsIn.2 ⟨hg.1.1, hg.1.2.1, hg.1.2.2.1, hg.1.2.2.2⟩) hg

theorem zeroFold_apply (comp : List ℤ) (d : ℤ → ℕ) (j : ℤ) :
    (comp.foldl (fun d' i => fun j => if j = i * 4 + 3 then 0 else d' j) d) j =
      if ∃ i ∈ comp, j = i * 4 + 3 then 0 else d j := by
  by_cases hex : ∃ i ∈ comp, j = i * 4 + 3
  · rw [if_pos hex]
    exact foldl_step_write _ (fun i j => j = i * 4 + 3) (fun _ _ => 0)
      (fun _ _ _ => rfl) comp d j 0 (fun _ _ _ => rfl) hex
  · rw [if_neg hex]
    exact foldl_step_eq _ (fun i j => j = i * 4 + 3) (fun _ _ => 0)
      (fun _ _ _ => rfl) comp d j (d j)
      (fun i hi hc => absurd ⟨i, hi, hc⟩ hex) rfl

theorem prune_apply (w h : ℕ) (comps : List (List ℤ)) (d : ℤ → ℕ) (j : ℤ) :
    (comps.foldl
      (fun d component =>
        if (component.length : ℚ) < minComponentSize w h then
          component.foldl (fun d' i => fun j => if j = i * 4 + 3 then 0 else d' j) d
        else d) d) j =
      if ∃ c ∈ comps, (c.length : ℚ) < minComponentSize w h ∧ ∃ i ∈ c, j = i * 4 + 3
      then 0 else d j := by
  induction comps generalizing d with
  | nil => simp
  | cons c cs ih =>
    rw [List.foldl_cons, ih]
    by_cases hcs : ∃ c' ∈ cs, (c'.length : ℚ) < minComponentSize w h ∧
        ∃ i ∈ c', j = i * 4 + 3
    · rw [if_pos hcs, if_pos ?_]
      obtain ⟨c', hc', hrest⟩ := hcs
      exact ⟨c', List.mem_cons_of_mem _ hc', hrest⟩
    · rw [if_neg hcs]
      by_cases hc : (c.length : ℚ) < minComponentSize w h ∧ ∃ i ∈ c, j = i * 4 + 3
      · rw [if_pos hc.1, zeroFold_apply, if_pos hc.2, if_pos ?_]
        exact ⟨c, List.mem_cons_self _ _, hc⟩
      · have hnotall : ¬∃ c' ∈ c :: cs, (c'.length : ℚ) < minComponentSize w h ∧
            ∃ i ∈ c', j = i * 4 + 3 := by
          rintro ⟨c', hc', hrest⟩
          rcases List.mem_cons.1 hc' with rfl | hmem
          · exact hc hrest
          · exact hcs ⟨c', hmem, hrest⟩
        rw [if_neg hnotall]
        by_cases hsmall : (c.length : ℚ) < minComponentSize w h
        · rw [if_pos hsmall, zeroFold_apply, if_neg (fun hex => hc ⟨hsmall, hex⟩)]
        · rw [if_neg hsmall]

open Classical in
/-- The size of the 4-connected foreground component containing `p`
(the number of in-bounds pixels `Conn`-reachable from `p`). -/
noncomputable def componentCard (data : ℤ → ℕ) (w h : ℕ) (p : ℤ × ℤ) : ℕ :=
  ((boundsF w h).filter (Conn data w h p)).card

open Classical in
/-- The number of in-bounds foreground pixels of the whole mask. -/
noncomputable def foregroundCard (data : ℤ → ℕ) (w h : ℕ) : ℕ :=
  ((boundsF w h).filter (Good data w h)).card

open Classical in
theorem class_length {data : ℤ → ℕ} {w h : ℕ} {s : ℤ × ℤ} {c : List ℤ}
    (hnd : c.Nodup) (hc : ∀ i, (i ∈ c ↔ ∃ q, Conn data w h s q ∧ pIdx w q = i)) :
    c.length = componentCard data w h s := by
  have h1 : c.toFinset.card = c.length := List.toFinset_card_of_nodup hnd
  have h2 : c.toFinset = ((boundsF w h).filter (Conn data w h s)).image (pIdx w) := by
    ext i
    rw [List.mem_toFinset, hc i, Finset.mem_image]
    constructor
    · rintro ⟨q, hcq, hqi⟩
      refine ⟨q, ?_, hqi⟩
      rw [Finset.mem_filter, mem_boundsF]
      exact ⟨(conn_good_right hcq).1, hcq⟩
    · rintro ⟨q, hq, hqi⟩
      rw [Finset.mem_filter] at hq
      exact ⟨q, hq.2, hqi⟩
  have h3 : (((boundsF w h).filter (Conn data w h s)).image (pIdx w)).card =
      ((boundsF w h).filter (Conn data w h s)).card := by
    apply Finset.card_image_of_injOn
    intro p hp q hq he
    rw [Finset.coe_filter, Set.mem_setOf_eq, mem_boundsF] at hp hq
    exact pIdx_inj hp.1.1 hp.1.2.1 hq.1.1 hq.1.2.1 he
  rw [← h1, h2, h3]
  rfl

open Classical in
theorem componentCard_congr {data : ℤ → ℕ} {w h : ℕ} {s p : ℤ × ℤ}
    (hsp : Conn data w h s p) :
    componentCard data w h s = componentCard data w h p := by
  unfold componentCard
  congr 1
  apply Finset.filter_congr
  intro q _
  constructor
  · intro hsq
    exact conn_trans (conn_symm hsp) hsq
  · intro hpq
    exact conn_trans hsp hpq

open Classical in
theorem componentCard_le_foregroundCard (data : ℤ → ℕ) (w h : ℕ) (p : ℤ × ℤ) :
    componentCard data w h p ≤ foregroundCard data w h := by
  apply Finset.card_le_card
  intro q hq
  rw [Finset.mem_filter] at hq ⊢
  exact ⟨hq.1, conn_good_right hq.2⟩

open Classical in
theorem cca_alpha_char (data : ℤ → ℕ) (w h : ℕ) (p : ℤ × ℤ)
    (hinB : InBounds w h p) :
    connectedComponentAnalysis w h data (pIdx w p * 4 + 3) =
      if 128 < data (pIdx w p * 4 + 3) ∧
         (componentCard data w h p : ℚ) < minComponentSize w h
      then 0 else data (pIdx w p * 4 + 3) := by
  obtain ⟨⟨hV1, hV2, hC1, hC2⟩, hvisited⟩ := ccScan_spec data w h
  unfold connectedComponentAnalysis
  rw [prune_apply]
  have hidx : ∀ i : ℤ, pIdx w p * 4 + 3 = i * 4 + 3 → i = pIdx w p := by
    intro i hi
    omega
  by_cases hfg : 128 < data (pIdx w p * 4 + 3)
  · have hgood : Good data w h p := ⟨hinB, hfg⟩
    obtain ⟨c, hcmem, hpin⟩ := (hC2 (pIdx w p)).1 (hvisited p hgood)
    obtain ⟨hnd, s, hgs, hchar⟩ := hC1 c hcmem
    obtain ⟨q, hconnq, hq⟩ := (hchar (pIdx w p)).1 hpin
    have hqB : InBounds w h q := (conn_good_right hconnq).1
    have hqp : q = p := pIdx_inj hqB.1 hqB.2.1 hinB.1 hinB.2.1 hq
    rw [hqp] at hconnq
    have hlen : c.length = componentCard data w h p := by
      rw [class_length hnd hchar]
      exact componentCard_congr hconnq
    by_cases hsmall : (componentCard data w h p : ℚ) < minComponentSize w h
    · have hprune : ∃ c' ∈ (ccScan w h data).2,
          (c'.length : ℚ) < minComponentSize w h ∧
          ∃ i ∈ c', pIdx w p * 4 + 3 = i * 4 + 3 := by
        refine ⟨c, hcmem, ?_, pIdx w p, hpin, rfl⟩
        rw [hlen]
        exact hsmall
      have hrhs : 128 < data (pIdx w p * 4 + 3) ∧
          (componentCard data w h p : ℚ) < minComponentSize w h := ⟨hfg, hsmall⟩
      rw [if_pos hprune, if_pos hrhs]
    · have hnprune : ¬∃ c' ∈ (ccScan w h data).2,
          (c'.length : ℚ) < minComponentSize w h ∧
          ∃ i ∈ c', pIdx w p * 4 + 3 = i * 4 + 3 := by
        rintro ⟨c', hc'mem, hc'small, i, hiin, hji⟩
        rw [hidx i hji] at hiin
        obtain ⟨hnd', s', hgs', hchar'⟩ := hC1 c' hc'mem
        obtain ⟨q', hconnq', hq'⟩ := (hchar' (pIdx w p)).1 hiin
        have hq'B : InBounds w h q' := (conn_good_right hconnq').1
        have hq'p : q' = p := pIdx_inj hq'B.1 hq'B.2.1 hinB.1 hinB.2.1 hq'
        rw [hq'p] at hconnq'
        have hlen' : c'.length = componentCard data w h p := by
          rw [class_length hnd' hchar']
          exact componentCard_congr hconnq'
        rw [hlen'] at hc'small
        exact hsmall hc'small
      have hnrhs : ¬(128 < data (pIdx w p * 4 + 3) ∧
          (componentCard data w h p : ℚ) < minComponentSize w h) :=
        fun hq2 => hsmall hq2.2
      rw [if_neg hnprune, if_neg hnrhs]
  · have hnprune : ¬∃ c' ∈ (ccScan w h data).2,
        (c'.length : ℚ) < minComponentSize w h ∧
        ∃ i ∈ c', pIdx w p * 4 + 3 = i * 4 + 3 := by
      rintro ⟨c', hc'mem, -, i, hiin, hji⟩
      rw [hidx i hji] at hiin
      obtain ⟨hnd', s', hgs', hchar'⟩ := hC1 c' hc'mem
      obtain ⟨q', hconnq', hq'⟩ := (hchar' (pIdx w p)).1 hiin
      have hq'B : InBounds w h q' := (conn_good_right hconnq').1
      have hq'p : q' = p := pIdx_inj hq'B.1 hq'B.2.1 hinB.1 hinB.2.1 hq'
      apply hfg
      have := (conn_good_right hconnq').2
      rw [hq'p] at this
      exact this
    have hnrhs : ¬(128 < data (pIdx w p * 4 + 3) ∧
        (componentCard data w h p : ℚ) < minComponentSize w h) :=
      fun hq2 => hfg hq2.1
    rw [if_neg hnprune, if_neg hnrhs]

end TensorFlowProcessor

/-- Claim C6: in the precise tier's small-region pruning stage
(`TensorFlowProcessor.connectedComponentAnalysis`), for every alpha mask and
every in-bounds pixel (x, y): the output alpha byte is 0 exactly when the
pixel is foreground (alpha > 128) and its 4-connected foreground component
holds fewer than max(50, width*height/1000) pixels, and is the unchanged
input byte otherwise (so components at or above the threshold are left
unchanged); consequently, when the mask's entire foreground pixel count is
below the threshold — a single isolated blob on an otherwise all-background
mask — every foreground pixel's alpha is zeroed. -/
theorem c6_component_pruning (data : ℤ → ℕ) (w h : ℕ) (x y : ℤ)
    (hx0 : 0 ≤ x) (hxw : x < (w : ℤ)) (hy0 : 0 ≤ y) (hyh : y < (h : ℤ)) :
    (TensorFlowProcessor.connectedComponentAnalysis w h data (zidx w x y + 3) =
      if 128 < data (zidx w x y + 3) ∧
         (TensorFlowProcessor.componentCard data w h (x, y) : ℚ) <
           TensorFlowProcessor.minComponentSize w h
      then 0 else data (zidx w x y + 3)) ∧
    (128 < data (zidx w x y + 3) →
      (TensorFlowProcessor.foregroundCard data w h : ℚ) <
        TensorFlowProcessor.minComponentSize w h →
      TensorFlowProcessor.connectedComponentAnalysis w h data (zidx w x y + 3) = 0) := by
  have hinB : TensorFlowProcessor.InBounds w h (x, y) := ⟨hx0, hxw, hy0, hyh⟩
  have hz : zidx w x y + 3 = TensorFlowProcessor.pIdx w (x, y) * 4 + 3 := by
    unfold zidx TensorFlowProcessor.pIdx
    ring
  have hchar := TensorFlowProcessor.cca_alpha_char data w h (x, y) hinB
  constructor
  · rw [hz]
    exact hchar
  · intro hfg hsmallall
    have hsmall : (TensorFlowProcessor.componentCard data w h (x, y) : ℚ) <
        TensorFlowProcessor.minComponentSize w h := by
      refine lt_of_le_of_lt ?_ hsmallall
      exact_mod_cast TensorFlowProcessor.componentCard_le_foregroundCard data w h (x, y)
    rw [hz] at hfg ⊢
    rw [hchar, if_pos ⟨hfg, hsmall⟩]

/-- A 4x4 mask whose only foreground pixel is (1, 1). -/
def c6data : ℤ → ℕ := fun j => if j = zidx 4 1 1 + 3 then 255 else 0

open Classical in
theorem c6_component_pruning_witness :
    TensorFlowProcessor.connectedComponentAnalysis 4 4 c6data (zidx 4 1 1 + 3) = 0 := by
  refine (c6_component_pruning c6data 4 4 1 1 (by decide) (by decide) (by decide)
    (by decide)).2 (by decide) ?_
  have h1 : TensorFlowProcessor.foregroundCard c6data 4 4 ≤ 16 := by
    unfold TensorFlowProcessor.foregroundCard
    have h2 := Finset.card_filter_le (TensorFlowProcessor.boundsF 4 4)
      (TensorFlowProcessor.Good c6data 4 4)
    rw [TensorFlowProcessor.boundsF_card] at h2
    exact h2.trans (by norm_num)
  have h3 : TensorFlowProcessor.minComponentSize 4 4 = 50 := by
    unfold TensorFlowProcessor.minComponentSize
    rw [max_eq_left (by norm_num)]
  have h4 : (TensorFlowProcessor.foregroundCard c6data 4 4 : ℚ) ≤ 16 := by
    exact_mod_cast h1
  rw [h3]
  linarith
